import Mathlib

/-!
Verification of the dimod `BinaryQuadraticModel` core
(`src/dimod/include/dimod/quadratic_model.h`).

The C++ code is shallowly embedded here:
* indices (`index_type`) become `Nat`,
* biases (`bias_type`, a floating template parameter) become `Rat`, so the
  arithmetic identities are exact,
* a `Neighborhood` (two parallel vectors `neighbors` / `quadratic_biases`)
  becomes a list of `(neighbor, bias)` pairs,
* the model state (`linear_biases_`, `adj_`, `offset_`, `vartype_`) becomes
  the structure `BQM`,
* a C++ member function that can throw becomes a function returning
  `BQM × Option String`: the final state of the object (in C++ the object
  keeps all mutations performed before the throw) together with the thrown
  error, if any.
-/

namespace Dimod

/-- `enum Vartype` of the source: the domain tag of a model. -/
inductive Vartype where
  | BINARY
  | SPIN
  | INTEGER
deriving DecidableEq, Repr

/-- A `Neighborhood`: the sparse row of one variable, a sequence of
`(neighbor index, bias)` pairs (the two parallel vectors of the source,
zipped). -/
abbrev Nbhd := List (Nat × Rat)

namespace Nbhd

/-- `Neighborhood::get(v, value=0)`: `lower_bound` walk over the (sorted)
row; returns the stored bias at key `v`, or `0` when `v` is absent. -/
def get : Nbhd → Nat → Rat
  | [], _ => 0
  | (u, b) :: rest, v => if u < v then get rest v else if u = v then b else 0

/-- `Neighborhood::at(v)`: like `get` but a strict lookup; `none` models the
`std::out_of_range` throw when `v` is absent. -/
def atKey : Nbhd → Nat → Option Rat
  | [], _ => none
  | (u, b) :: rest, v =>
    if u < v then atKey rest v else if u = v then some b else none

/-- The effect of `neighborhood[v] += bias` (mutable `operator[]`, which
inserts a zero entry at the sorted position when absent, followed by `+=`). -/
def addTo : Nbhd → Nat → Rat → Nbhd
  | [], v, bias => [(v, bias)]
  | (u, b) :: rest, v, bias =>
    if u < v then (u, b) :: addTo rest v bias
    else if u = v then (u, b + bias) :: rest
    else (v, bias) :: (u, b) :: rest

/-- `Neighborhood::erase(lower_bound(n), end())` on a sorted row: keep the
prefix of entries with key `< n`. -/
def eraseGE (nb : Nbhd) (n : Nat) : Nbhd :=
  nb.takeWhile fun p => p.1 < n

/-- Modelled from the spec: `utils::zip_sort` (`dimod/utils.h` is not part of
the sources) sorts the two parallel vectors in tandem by neighbor key; the
spec describes `sort_and_sum` as "sorts (if not already sorted)". On the
zipped representation this is a sort of the pairs by key. -/
def zipSort (nb : Nbhd) : Nbhd :=
  List.insertionSort (fun p q : Nat × Rat => p.1 ≤ q.1) nb

/-- The de-duplication pass of `Neighborhood::sort_and_sum`: on the (now
sorted) row, merge runs of equal keys by summing their biases. -/
def dedupSum : Nbhd → Nbhd
  | [] => []
  | [p] => [p]
  | (u, b) :: (v, c) :: rest =>
    if u = v then dedupSum ((u, b + c) :: rest)
    else (u, b) :: dedupSum ((v, c) :: rest)
termination_by nb => nb.length

/-- `Neighborhood::sort_and_sum()`: sort by key, then merge duplicate keys by
summing their biases. (When the row is already sorted the source skips the
sort; sorting a sorted row is the identity, so the composition is faithful.) -/
def sort_and_sum (nb : Nbhd) : Nbhd :=
  dedupSum (zipSort nb)

end Nbhd

/-- The state of a `BinaryQuadraticModel<Bias>`: the three fields of
`QuadraticModelBase` (`linear_biases_`, `adj_`, `offset_`) plus the
`vartype_` tag of the derived class. -/
structure BQM where
  linear_biases : List Rat
  adj : List Nbhd
  offset : Rat
  vartype : Vartype
deriving DecidableEq, Repr

namespace BQM

/-- The default constructor `BinaryQuadraticModel()`: empty base, vartype
`BINARY`. -/
def mkEmpty : BQM := ⟨[], [], 0, Vartype.BINARY⟩

/-- The constructor `BinaryQuadraticModel(vartype)`: empty base with the given
vartype. -/
def ofVartype (vt : Vartype) : BQM := ⟨[], [], 0, vt⟩

/-- `QuadraticModelBase::num_variables()` = `linear_biases_.size()`. -/
def num_variables (m : BQM) : Nat := m.linear_biases.length

/-- `QuadraticModelBase::num_interactions()`: half the total row size (each
interaction is stored twice). -/
def num_interactions (m : BQM) : Nat := (m.adj.map List.length).sum / 2

/-- `QuadraticModelBase::linear(v)` (read access; `v` in range in any defined
use). -/
def linear (m : BQM) (v : Nat) : Rat := m.linear_biases.getD v 0

/-- The row of variable `u` (`adj_[u]`). -/
def row (m : BQM) (u : Nat) : Nbhd := m.adj.getD u []

/-- `QuadraticModelBase::quadratic(u, v)`: symmetric lookup, `0` when the
interaction is absent. -/
def quadratic (m : BQM) (u v : Nat) : Rat := Nbhd.get (m.row u) v

/-- `QuadraticModelBase::quadratic_at(u, v)`: strict symmetric lookup; `none`
models the `std::out_of_range` (NotFound) throw. -/
def quadratic_at (m : BQM) (u v : Nat) : Option Rat := Nbhd.atKey (m.row u) v

/-- `QuadraticModelBase::is_linear()`: every row is empty. -/
def is_linear (m : BQM) : Bool := m.adj.all fun nb => nb.isEmpty

/-- Replace the row of `u`. -/
def setRow (m : BQM) (u : Nat) (nb : Nbhd) : BQM :=
  { m with adj := m.adj.set u nb }

/-- The inner loop of `energy`: walk `u`'s row from the beginning, stopping at
the first neighbor `v` with `v ≥ u` (`nit != span.second && (*nit).first < u`),
accumulating `u_val * v_val * bias`. -/
def energyRow (x : List Rat) (u : Nat) (uval : Rat) : Nbhd → Rat
  | [] => 0
  | (v, b) :: rest =>
    if v < u then uval * x.getD v 0 * b + energyRow x u uval rest else 0

/-- `QuadraticModelBase::energy(sample)`: start from the offset; for each
variable `u` add `u_val * linear(u)` and the partial row walk over neighbors
`v < u`. -/
def energy (m : BQM) (x : List Rat) : Rat :=
  (List.range m.num_variables).foldl
    (fun en u => en + x.getD u 0 * m.linear u + energyRow x u (x.getD u 0) (m.row u))
    m.offset

/-- `BinaryQuadraticModel::resize(n)`: when shrinking, first erase from every
surviving row the suffix of neighbors `≥ n`; then resize the linear-bias and
row vectors to length `n` (growing appends zero biases and empty rows). -/
def resize (m : BQM) (n : Nat) : BQM :=
  let adj1 := if n < m.num_variables then m.adj.map (fun nb => Nbhd.eraseGE nb n) else m.adj
  { m with
    linear_biases :=
      m.linear_biases.take n ++ List.replicate (n - m.linear_biases.length) 0,
    adj := adj1.take n ++ List.replicate (n - adj1.length) [] }

/-- `BinaryQuadraticModel::add_quadratic(u, v, bias)`: self-loops are routed
per vartype (BINARY: into `linear(u)`; SPIN: into the offset; otherwise a
`logic_error` throw); distinct variables get a symmetric upsert-add into both
rows. -/
def add_quadratic (m : BQM) (u v : Nat) (bias : Rat) : BQM × Option String :=
  if u = v then
    match m.vartype with
    | Vartype.BINARY =>
      ({ m with linear_biases :=
          m.linear_biases.set u (m.linear_biases.getD u 0 + bias) }, none)
    | Vartype.SPIN => ({ m with offset := m.offset + bias }, none)
    | Vartype.INTEGER => (m, some "unknown vartype")
  else
    let m1 := m.setRow u (Nbhd.addTo (m.row u) v bias)
    (m1.setRow v (Nbhd.addTo (m1.row v) u bias), none)

/-- Append `(v, b)` to `u`'s row and `(u, b)` to `v`'s row (`emplace_back` on
both endpoints, as done by the bulk-ingestion paths). -/
def emplaceBoth (m : BQM) (u v : Nat) (b : Rat) : BQM :=
  let m1 := m.setRow u (m.row u ++ [(v, b)])
  m1.setRow v (m1.row v ++ [(u, b)])

end BQM

/-- The combined dense-matrix coefficient of the unordered pair `u, v`:
`dense[u*n+v] + dense[v*n+u]`. -/
def denseQ (d : List Rat) (n u v : Nat) : Rat :=
  d.getD (u * n + v) 0 + d.getD (v * n + u) 0

/-- Inner loop of the dense `add_quadratic`: for the fixed row `u`, visit the
columns `vs` (in order), appending each nonzero combined coefficient to both
endpoints' rows. -/
def denseInner (d : List Rat) (n u : Nat) : BQM → List Nat → BQM
  | m, [] => m
  | m, v :: vs =>
    let q := denseQ d n u v
    denseInner d n u (if q = 0 then m else m.emplaceBoth u v q) vs

/-- Outer loop of the dense `add_quadratic`: for each `u` in `us`, run the
inner loop over the columns `u+1, …, n-1`. -/
def denseOuter (d : List Rat) (n : Nat) : BQM → List Nat → BQM
  | m, [] => m
  | m, u :: us => denseOuter d n (denseInner d n u m ((List.range n).drop (u + 1))) us

namespace BQM

/-- `BinaryQuadraticModel::add_quadratic(dense, num_variables)`: record
whether a sort would be needed (`!is_linear()`), append every nonzero combined
off-diagonal entry to both endpoints' rows, then throw `not implemented yet`
if a sort was needed; otherwise route the diagonal per vartype. -/
def add_quadratic_dense (m : BQM) (d : List Rat) (n : Nat) : BQM × Option String :=
  let sort_needed := !m.is_linear
  let m1 := denseOuter d n m (List.range n)
  if sort_needed then (m1, some "not implemented yet")
  else
    match m.vartype with
    | Vartype.SPIN =>
      ({ m1 with offset :=
          m1.offset + ((List.range n).map fun v => d.getD (v * (n + 1)) 0).sum }, none)
    | Vartype.BINARY =>
      let lb1 := (List.range n).foldl
        (fun lb v => lb.set v (lb.getD v 0 + d.getD (v * (n + 1)) 0))
        m1.linear_biases
      ({ m1 with linear_biases := lb1 }, none)
    | Vartype.INTEGER => (m1, some "bad vartype")

end BQM

/-- One COO entry `(row, col, bias)` touches variable `i` when it is
off-diagonal and one of its endpoints is `i` (this is `counts[i] > 0` of the
source's first pass). -/
def cooTouched (entries : List (Nat × Nat × Rat)) (i : Nat) : Bool :=
  entries.any fun e => decide (e.1 ≠ e.2.1) && (e.1 == i || e.2.1 == i)

/-- Second pass of the COO ingestion: diagonal entries go through the
vartype-routing `add_quadratic` (propagating its throw), off-diagonal entries
are appended unsorted to both endpoints' rows. -/
def cooAdd : BQM → List (Nat × Nat × Rat) → BQM × Option String
  | m, [] => (m, none)
  | m, (r, c, b) :: rest =>
    if r = c then
      match m.add_quadratic r c b with
      | (m1, none) => cooAdd m1 rest
      | (m1, some e) => (m1, some e)
    else cooAdd (m.emplaceBoth r c b) rest

namespace BQM

/-- `BinaryQuadraticModel::add_quadratic(row_it, col_it, bias_it, length)`
(COO ingestion). For `length > 0`: grow to `max_label + 1` when needed, append
all entries (second pass), then `sort_and_sum` every touched row. For
`length < 0`: throw `std::out_of_range("length must be positive")` before any
mutation. For `length == 0`: all passes are empty. The three iterator
arguments become lists read up to `length`. -/
def add_quadratic_coo (m : BQM) (rows cols : List Nat) (biases : List Rat)
    (length : Int) : BQM × Option String :=
  if 0 < length then
    let k := length.toNat
    let rs := rows.take k
    let cs := cols.take k
    let max_label := max (rs.foldl max 0) (cs.foldl max 0)
    let m1 := if m.num_variables ≤ max_label then m.resize (max_label + 1) else m
    let entries := rs.zip (cs.zip (biases.take k))
    match cooAdd m1 entries with
    | (m2, none) =>
      ({ m2 with adj := m2.adj.mapIdx (fun i nb =>
          if cooTouched entries i then Nbhd.sort_and_sum nb else nb) }, none)
    | (m2, some e) => (m2, some e)
  else if length < 0 then (m, some "length must be positive")
  else (m, none)

/-- `BinaryQuadraticModel::vartype()` — the global tag. -/
def vartypeTag (m : BQM) : Vartype := m.vartype

/-- `BinaryQuadraticModel::vartype(v)` — the per-variable accessor; the body
is just `return vartype_;`. -/
def vartypeAt (m : BQM) (v : Nat) : Vartype := m.vartype

end BQM

/-- The multiplier table of `change_vartype`:
`(lin_mp, lin_offset_mp, quad_mp, lin_quad_mp, quad_offset_mp)`; `none` models
the `logic_error("unexpected vartype")` throw. -/
def cvMultipliers : Vartype → Option (Rat × Rat × Rat × Rat × Rat)
  | Vartype.BINARY => some (2, -1, 4, -2, 1/2)
  | Vartype.SPIN => some (1/2, 1/2, 1/4, 1/4, 1/8)
  | Vartype.INTEGER => none

/-- Inner loop of `change_vartype` at variable `ui`: for each entry of the
row, with the original bias `qbias`: scale the stored bias by `quad_mp`, add
`lin_quad_mp * qbias` to `linear(ui)`, add `quad_offset_mp * qbias` to the
offset. State (`linear_biases_`, `offset_`) is threaded entry by entry. -/
def cvInner (quad_mp lin_quad_mp quad_offset_mp : Rat) (ui : Nat) :
    Nbhd → List Rat → Rat → Nbhd × List Rat × Rat
  | [], lin, off => ([], lin, off)
  | (v, qbias) :: rest, lin, off =>
    let lin1 := lin.set ui (lin.getD ui 0 + lin_quad_mp * qbias)
    let off1 := off + quad_offset_mp * qbias
    let r := cvInner quad_mp lin_quad_mp quad_offset_mp ui rest lin1 off1
    ((v, quad_mp * qbias) :: r.1, r.2)

/-- The body of one outer iteration of `change_vartype` at variable `ui`:
capture the original linear bias, scale it by `lin_mp`, add
`lin_offset_mp * lbias` to the offset, then run the inner loop over `ui`'s
row. -/
def cvStep (lin_mp lin_offset_mp quad_mp lin_quad_mp quad_offset_mp : Rat)
    (st : List Rat × List Nbhd × Rat) (ui : Nat) : List Rat × List Nbhd × Rat :=
  let lbias := st.1.getD ui 0
  let lin1 := st.1.set ui (lin_mp * lbias)
  let off1 := st.2.2 + lin_offset_mp * lbias
  let r := cvInner quad_mp lin_quad_mp quad_offset_mp ui (st.2.1.getD ui []) lin1 off1
  (r.2.1, st.2.1.set ui r.1, r.2.2)

/-- The outer loop of `change_vartype` over the variable indices. -/
def cvOuter (lin_mp lin_offset_mp quad_mp lin_quad_mp quad_offset_mp : Rat) :
    List Rat × List Nbhd × Rat → List Nat → List Rat × List Nbhd × Rat
  | st, [] => st
  | st, ui :: rest =>
    cvOuter lin_mp lin_offset_mp quad_mp lin_quad_mp quad_offset_mp
      (cvStep lin_mp lin_offset_mp quad_mp lin_quad_mp quad_offset_mp st ui) rest

namespace BQM

/-- `BinaryQuadraticModel::change_vartype(vartype)`: no-op when the target
already matches; `logic_error` for an unknown target; otherwise apply the
fixed per-variable linear transform with the multiplier table and set the
tag. -/
def change_vartype (m : BQM) (t : Vartype) : BQM × Option String :=
  if t = m.vartype then (m, none)
  else
    match cvMultipliers t with
    | none => (m, some "unexpected vartype")
    | some (lin_mp, lin_offset_mp, quad_mp, lin_quad_mp, quad_offset_mp) =>
      let r := cvOuter lin_mp lin_offset_mp quad_mp lin_quad_mp quad_offset_mp
        (m.linear_biases, m.adj, m.offset) (List.range m.num_variables)
      (⟨r.1, r.2.1, r.2.2, t⟩, none)

end BQM

/-- The body of `add_bqm(bqm, mapping)` once the vartypes agree: check the
mapping length (`logic_error` on mismatch), grow to `max(mapping)+1` when
needed, add the offset, then per source variable add the translated linear
bias and append the translated row entries (`emplace_back`, with no
`sort_and_sum`). -/
def addBqmMappedSame (m other : BQM) (mapping : List Nat) : BQM × Option String :=
  if mapping.length ≠ other.num_variables then
    (m, some "bqm and mapping must have the same length")
  else
    let size := mapping.foldl max 0 + 1
    let m1 := if m.num_variables < size then m.resize size else m
    let m2 := { m1 with offset := m1.offset + other.offset }
    ((List.range other.num_variables).foldl
      (fun acc old_u =>
        let new_u := mapping.getD old_u 0
        let acc1 := { acc with linear_biases :=
          acc.linear_biases.set new_u (acc.linear_biases.getD new_u 0 + other.linear old_u) }
        (other.row old_u).foldl
          (fun acc2 p => acc2.setRow new_u (acc2.row new_u ++ [(mapping.getD p.1 0, p.2)]))
          acc1)
      m2, none)

namespace BQM

/-- `BinaryQuadraticModel::add_bqm(bqm, mapping)`: when the vartypes differ,
convert a deep copy of the argument first (a throw from that conversion leaves
`self` unchanged); then run the merged-with-mapping body. -/
def add_bqm_mapped (m other : BQM) (mapping : List Nat) : BQM × Option String :=
  if other.vartype ≠ m.vartype then
    match other.change_vartype m.vartype with
    | (oc, none) => addBqmMappedSame m oc mapping
    | (_, some e) => (m, some e)
  else addBqmMappedSame m other mapping

end BQM

/-! ## The adjacency invariants of the spec (§3) -/

/-- Invariant 1: the keys of a row are sorted strictly ascending (sorted and
duplicate-free). -/
abbrev rowSorted (nb : Nbhd) : Prop := List.Pairwise (fun p q : Nat × Rat => p.1 < q.1) nb

namespace BQM

/-- Invariant 1 for every row of the model. -/
def SortedAdj (m : BQM) : Prop := ∀ nb ∈ m.adj, rowSorted nb

/-- Invariant 2 (symmetric storage): whenever `v` appears in `u`'s row with
bias `b`, `u` appears in `v`'s row with the same bias `b`. -/
def SymmetricAdj (m : BQM) : Prop :=
  ∀ u, u < m.adj.length → ∀ p ∈ m.row u, (u, p.2) ∈ m.row p.1

/-- The adjacency invariants: one row per variable, rows sorted-unique,
symmetric storage. -/
def AdjInvariant (m : BQM) : Prop :=
  m.adj.length = m.num_variables ∧ m.SortedAdj ∧ m.SymmetricAdj

/-- Interactions relate distinct variables: no row contains its own index
(spec §3: a quadratic bias is attached to a pair of distinct variables). -/
def NoLoops (m : BQM) : Prop :=
  ∀ u, u < m.adj.length → ∀ p ∈ m.row u, p.1 ≠ u

instance (m : BQM) : Decidable m.SortedAdj := by
  unfold BQM.SortedAdj
  infer_instance

instance (m : BQM) : Decidable m.SymmetricAdj := by
  unfold BQM.SymmetricAdj
  infer_instance

instance (m : BQM) : Decidable m.AdjInvariant := by
  unfold BQM.AdjInvariant
  infer_instance

instance (m : BQM) : Decidable m.NoLoops := by
  unfold BQM.NoLoops
  infer_instance

end BQM

/-- The energy formula as the spec states it: `offset` plus the sum over all
variables `u` of `linear(u)·x_u` plus the sum over unordered pairs `u < v` of
`quadratic(u,v)·x_u·x_v` (the accessor `quadratic` is `0` off the stored
pairs, so the double sum ranges exactly over the stored pairs). -/
def BQM.energySpec (m : BQM) (x : List Rat) : Rat :=
  m.offset + (∑ u ∈ Finset.range m.num_variables, m.linear u * x.getD u 0)
    + ∑ u ∈ Finset.range m.num_variables, ∑ v ∈ Finset.range m.num_variables,
        if u < v then m.quadratic u v * (x.getD u 0 * x.getD v 0) else 0

/-- The entries that the dense ingestion appends to row `i` (for `i < n`), in
chronological order: first, from the outer iterations `u = 0, …, i-1`, the
mirror entries `(u, dense[u,i] + dense[i,u])`; then, from the outer iteration
`u = i`, the entries `(v, dense[i,v] + dense[v,i])` for `v = i+1, …, n-1`;
zero combined coefficients are skipped. -/
def denseAppendedRow (d : List Rat) (n i : Nat) : Nbhd :=
  (List.range i).filterMap
    (fun u => if denseQ d n u i = 0 then none else some (u, denseQ d n u i))
  ++ ((List.range n).drop (i + 1)).filterMap
    (fun v => if denseQ d n i v = 0 then none else some (v, denseQ d n i v))

/-! ## Concrete models used by individual claims -/

/-- The 3-variable model `bqm0` of the repository's combination test
(`set_quadratic(0,1,1.5)`, `set_quadratic(0,2,-2)`, `set_quadratic(1,2,7)`,
`linear(2) = -1`, `offset = -4`), written out as its adjacency state. -/
def testBqm0 : BQM :=
  ⟨[0, 0, -1],
   [[(1, 3/2), (2, -2)], [(0, 3/2), (2, 7)], [(0, -2), (1, 7)]],
   -4, Vartype.SPIN⟩

/-- A BINARY variant of `testBqm0` with nonzero linear biases, used as a
concrete witness model. -/
def testBqmB : BQM :=
  ⟨[1, -2, 3],
   [[(1, 3/2), (2, -2)], [(0, 3/2), (2, 7)], [(0, -2), (1, 7)]],
   -4, Vartype.BINARY⟩

/-- The 5-variable model `bqm1` of the repository's combination test. -/
def testBqm1 : BQM :=
  ⟨[1, -13/4, 2, 3, -9/2],
   [[(1, 28/5), (3, -1)], [(0, 28/5), (2, 8/5)], [(1, 8/5)],
    [(0, -1), (4, -25)], [(3, -25)]],
   -19/5, Vartype.SPIN⟩

/-! ## Lookup lemmas for sorted rows -/

/-- A key that appears nowhere in the row looks up to `0`. -/
theorem Nbhd.get_eq_zero (nb : Nbhd) (v : Nat) (h : ∀ b : Rat, (v, b) ∉ nb) :
    Nbhd.get nb v = 0 := by
  induction nb with
  | nil => rfl
  | cons p rest ih =>
    obtain ⟨u, b⟩ := p
    show (if u < v then Nbhd.get rest v else if u = v then b else 0) = 0
    by_cases h1 : u < v
    · rw [if_pos h1]
      exact ih fun c hc => h c (List.mem_cons_of_mem _ hc)
    · rw [if_neg h1]
      by_cases h2 : u = v
      · subst h2
        exact absurd (List.mem_cons_self (u, b) rest) (h b)
      · rw [if_neg h2]

/-- Lookup in a row whose head key is below every tail key. -/
theorem Nbhd.get_cons (u : Nat) (b : Rat) (rest : Nbhd) (v : Nat)
    (hgt : ∀ p ∈ rest, u < p.1) :
    Nbhd.get ((u, b) :: rest) v = if v = u then b else Nbhd.get rest v := by
  show (if u < v then Nbhd.get rest v else if u = v then b else 0) = _
  rcases lt_trichotomy u v with h | h | h
  · rw [if_pos h, if_neg (by omega)]
  · subst h
    rw [if_neg (lt_irrefl u), if_pos rfl, if_pos rfl]
  · rw [if_neg (by omega), if_neg (by omega), if_neg (by omega)]
    refine (Nbhd.get_eq_zero rest v fun c hc => ?_).symm
    have h2 : u < v := hgt (v, c) hc
    omega

/-- On a sorted row, `get` returns the stored bias of a present entry. -/
theorem Nbhd.get_of_mem (nb : Nbhd) (v : Nat) (b : Rat) (hs : rowSorted nb)
    (hm : (v, b) ∈ nb) : Nbhd.get nb v = b := by
  induction nb with
  | nil => cases hm
  | cons p rest ih =>
    obtain ⟨u, c⟩ := p
    replace hs := List.pairwise_cons.mp hs
    rw [Nbhd.get_cons u c rest v hs.1]
    rcases List.mem_cons.mp hm with he | hr
    · cases he
      rw [if_pos rfl]
    · have hv : u < v := hs.1 (v, b) hr
      rw [if_neg (by omega)]
      exact ih hs.2 hr

/-- Bridge from the list sum over a sorted, bounded row to a `Finset.range`
sum through the `get` accessor. -/
theorem Nbhd.sum_map_eq_sum_range (nb : Nbhd) (n : Nat) (G : Nat → Rat → Rat)
    (hs : rowSorted nb) (hb : ∀ p ∈ nb, p.1 < n) (hG : ∀ v, G v 0 = 0) :
    (nb.map fun p => G p.1 p.2).sum = ∑ v ∈ Finset.range n, G v (Nbhd.get nb v) := by
  induction nb with
  | nil =>
    simp only [List.map_nil, List.sum_nil]
    refine (Finset.sum_eq_zero fun v _ => ?_).symm
    show G v (Nbhd.get [] v) = 0
    rw [show Nbhd.get [] v = 0 from rfl, hG]
  | cons p rest ih =>
    obtain ⟨k, b⟩ := p
    replace hs := List.pairwise_cons.mp hs
    have hkn : k ∈ Finset.range n :=
      Finset.mem_range.mpr (hb (k, b) (List.mem_cons_self _ _))
    have hrest : ∀ q ∈ rest, q.1 < n := fun q hq => hb q (List.mem_cons_of_mem _ hq)
    have hget : ∀ w, Nbhd.get ((k, b) :: rest) w = if w = k then b else Nbhd.get rest w :=
      fun w => Nbhd.get_cons k b rest w hs.1
    have hrk : Nbhd.get rest k = 0 :=
      Nbhd.get_eq_zero rest k fun c hc => absurd (hs.1 (k, c) hc : k < k) (lt_irrefl k)
    rw [List.map_cons, List.sum_cons, ih hs.2 hrest]
    rw [← Finset.add_sum_erase _ (fun v => G v (Nbhd.get rest v)) hkn]
    rw [hrk, hG, zero_add]
    rw [← Finset.add_sum_erase _ (fun v => G v (Nbhd.get ((k, b) :: rest) v)) hkn]
    rw [hget k, if_pos rfl]
    refine congrArg (_ + ·) (Finset.sum_congr rfl fun v hv => ?_)
    rw [hget v, if_neg (Finset.ne_of_mem_erase hv)]

/-! ## Decomposing `energy` -/

/-- On a sorted row, the early-stopping inner walk of `energy` equals the sum
over all entries below `u`. -/
theorem BQM.energyRow_sorted (x : List Rat) (u : Nat) (uval : Rat) (nb : Nbhd)
    (hs : rowSorted nb) :
    BQM.energyRow x u uval nb
      = (nb.map fun p => if p.1 < u then uval * x.getD p.1 0 * p.2 else 0).sum := by
  induction nb with
  | nil => rfl
  | cons p rest ih =>
    obtain ⟨v, b⟩ := p
    replace hs := List.pairwise_cons.mp hs
    show (if v < u then uval * x.getD v 0 * b + BQM.energyRow x u uval rest else 0) = _
    rw [List.map_cons, List.sum_cons]
    by_cases h1 : v < u
    · rw [if_pos h1, if_pos h1, ih hs.2]
    · rw [if_neg h1, if_neg h1, zero_add]
      refine (List.sum_eq_zero fun y hy => ?_).symm
      rcases List.mem_map.mp hy with ⟨q, hq, rfl⟩
      have hvq : v < q.1 := hs.1 q hq
      rw [if_neg (by omega)]

/-- A left fold that only accumulates additions is the starting value plus a
list sum. -/
theorem foldl_add_acc (f : Nat → Rat) (l : List Nat) (init : Rat) :
    l.foldl (fun en u => en + f u) init = init + (l.map f).sum := by
  induction l generalizing init with
  | nil => simp
  | cons u us ih =>
    rw [List.foldl_cons, ih, List.map_cons, List.sum_cons, add_assoc]

/-- Sum of `f` over `List.range n` as a `Finset.range` sum. -/
theorem sum_map_range (f : Nat → Rat) (n : Nat) :
    ((List.range n).map f).sum = ∑ i ∈ Finset.range n, f i := by
  induction n with
  | zero => rfl
  | succ k ih =>
    rw [List.range_succ, List.map_append, List.sum_append, ih,
      Finset.sum_range_succ, List.map_singleton, List.sum_singleton]

/-- `energy` as offset plus a `Finset.range` sum of per-variable
contributions. -/
theorem BQM.energy_decomp (m : BQM) (x : List Rat) :
    m.energy x = m.offset + ∑ u ∈ Finset.range m.num_variables,
      (x.getD u 0 * m.linear u + BQM.energyRow x u (x.getD u 0) (m.row u)) := by
  show (List.range m.num_variables).foldl _ m.offset = _
  rw [show (fun (en : Rat) (u : Nat) =>
        en + x.getD u 0 * m.linear u + BQM.energyRow x u (x.getD u 0) (m.row u))
      = fun en u => en + (x.getD u 0 * m.linear u
          + BQM.energyRow x u (x.getD u 0) (m.row u)) from by
    funext en u
    rw [add_assoc]]
  rw [foldl_add_acc, sum_map_range]

/-! ## Consequences of the adjacency invariants -/

/-- Every row of a model with sorted adjacency is sorted (rows past the end
are empty). -/
theorem BQM.rowSorted_row (m : BQM) (h : m.SortedAdj) (u : Nat) :
    rowSorted (m.row u) := by
  by_cases hu : u < m.adj.length
  · refine h _ ?_
    rw [BQM.row, List.getD_eq_getElem m.adj [] hu]
    exact List.getElem_mem hu
  · rw [BQM.row, List.getD_eq_default m.adj [] (by omega)]
    exact List.Pairwise.nil

/-- Symmetric storage, stated through rows at arbitrary indices. -/
theorem BQM.mem_row_symm (m : BQM) (h : m.SymmetricAdj) {u v : Nat} {b : Rat}
    (hm : (v, b) ∈ m.row u) : (u, b) ∈ m.row v := by
  by_cases hu : u < m.adj.length
  · exact h u hu (v, b) hm
  · rw [BQM.row, List.getD_eq_default m.adj [] (by omega)] at hm
    cases hm

/-- Under symmetric storage every stored neighbor index is a variable
index. -/
theorem BQM.mem_row_lt (m : BQM) (hA : m.AdjInvariant) {u : Nat} {p : Nat × Rat}
    (hm : p ∈ m.row u) : p.1 < m.num_variables := by
  obtain ⟨hlen, _, hsym⟩ := hA
  obtain ⟨v, b⟩ := p
  have h2 : (u, b) ∈ m.row v := m.mem_row_symm hsym hm
  by_cases hv : v < m.adj.length
  · omega
  · rw [BQM.row, List.getD_eq_default m.adj [] (by omega)] at h2
    cases h2

/-- The `quadratic` accessor is symmetric on models satisfying the adjacency
invariants. -/
theorem BQM.quadratic_symm (m : BQM) (hA : m.AdjInvariant) (u v : Nat) :
    m.quadratic u v = m.quadratic v u := by
  obtain ⟨hlen, hsort, hsym⟩ := hA
  show Nbhd.get (m.row u) v = Nbhd.get (m.row v) u
  by_cases hm : ∃ b : Rat, (v, b) ∈ m.row u
  · obtain ⟨b, hb⟩ := hm
    rw [Nbhd.get_of_mem _ _ _ (m.rowSorted_row hsort u) hb,
      Nbhd.get_of_mem _ _ _ (m.rowSorted_row hsort v) (m.mem_row_symm hsym hb)]
  · push_neg at hm
    rw [Nbhd.get_eq_zero _ _ hm]
    refine (Nbhd.get_eq_zero _ _ fun c hc => ?_).symm
    exact hm c (m.mem_row_symm hsym hc)

/-- Swapping the traversal direction of the strict double sum, using the
symmetry of the pair coefficients. -/
theorem sum_lt_swap (n : Nat) (x : List Rat) (g : Nat → Nat → Rat)
    (hg : ∀ u v, g u v = g v u) :
    (∑ u ∈ Finset.range n, ∑ v ∈ Finset.range n,
        if v < u then x.getD u 0 * x.getD v 0 * g u v else 0)
      = ∑ u ∈ Finset.range n, ∑ v ∈ Finset.range n,
          if u < v then g u v * (x.getD u 0 * x.getD v 0) else 0 := by
  rw [Finset.sum_comm]
  refine Finset.sum_congr rfl fun a _ => Finset.sum_congr rfl fun b _ => ?_
  by_cases h : a < b
  · rw [if_pos h, if_pos h, hg b a]
    ring
  · rw [if_neg h, if_neg h]

/-- The central helper: on any model satisfying the adjacency invariants,
the implemented `energy` equals the spec formula. -/
theorem BQM.energy_eq_energySpec (m : BQM) (x : List Rat) (hA : m.AdjInvariant) :
    m.energy x = m.energySpec x := by
  have hsort := hA.2.1
  rw [BQM.energy_decomp, BQM.energySpec]
  rw [Finset.sum_add_distrib, ← add_assoc]
  congr 1
  · congr 1
    exact Finset.sum_congr rfl fun u _ => mul_comm _ _
  · refine (Finset.sum_congr rfl fun u _ => ?_).trans
      (sum_lt_swap m.num_variables x (fun u v => m.quadratic u v)
        (m.quadratic_symm hA))
    rw [BQM.energyRow_sorted x u (x.getD u 0) (m.row u) (m.rowSorted_row hsort u)]
    exact Nbhd.sum_map_eq_sum_range (m.row u) m.num_variables
      (fun v b => if v < u then x.getD u 0 * x.getD v 0 * b else 0)
      (m.rowSorted_row hsort u)
      (fun p hp => m.mem_row_lt hA hp)
      (fun v => by simp)

/-! ## `List.set` / `List.getD` utilities -/

theorem getD_set_self {α : Type} (l : List α) (i : Nat) (a d : α) (h : i < l.length) :
    (l.set i a).getD i d = a := by
  rw [List.getD_eq_getElem _ d (by simpa using h)]
  simp [h]

theorem getD_set_ne {α : Type} (l : List α) (i j : Nat) (a d : α) (h : i ≠ j) :
    (l.set i a).getD j d = l.getD j d := by
  rw [List.getD_eq_getD_get?, List.getD_eq_getD_get?]
  simp [List.getElem?_set_ne h]

theorem set_getD_self {α : Type} (l : List α) (i : Nat) (d : α) (h : i < l.length) :
    l.set i (l.getD i d) = l := by
  refine List.ext_getElem? fun j => ?_
  by_cases hj : i = j
  · subst hj
    rw [List.getElem?_set_self (by simpa using h), List.getD_eq_getElem _ _ h,
      List.getElem?_eq_getElem h]
  · rw [List.getElem?_set_ne hj]

/-! ## Closed form of the `change_vartype` loops -/

/-- Closed form of the inner loop: scale the row biases by `quad_mp`, add
`lin_quad_mp` times the row bias sum to `linear(ui)`, add `quad_offset_mp`
times the row bias sum to the offset. -/
theorem cvInner_eq (qm lqm qom : Rat) (ui : Nat) (nb : Nbhd) (lin : List Rat)
    (off : Rat) :
    cvInner qm lqm qom ui nb lin off
      = (nb.map fun p => (p.1, qm * p.2),
         lin.set ui (lin.getD ui 0 + lqm * (nb.map Prod.snd).sum),
         off + qom * (nb.map Prod.snd).sum) := by
  induction nb generalizing lin off with
  | nil =>
    simp only [cvInner, List.map_nil, List.sum_nil, mul_zero, add_zero]
    refine Prod.ext rfl (Prod.ext ?_ rfl)
    by_cases h : ui < lin.length
    · rw [set_getD_self lin ui 0 h]
    · rw [List.set_eq_of_length_le (by omega)]
  | cons p rest ih =>
    obtain ⟨v, q⟩ := p
    simp only [cvInner, List.map_cons, List.sum_cons]
    rw [ih]
    simp only [Prod.mk.injEq, true_and]
    refine ⟨?_, by ring⟩
    by_cases h : ui < lin.length
    · rw [getD_set_self lin ui _ 0 h, List.set_set]
      congr 1
      ring
    · have h2 : lin.set ui (lin.getD ui 0 + lqm * q) = lin :=
        List.set_eq_of_length_le (by omega)
      rw [h2, List.set_eq_of_length_le (by omega), List.set_eq_of_length_le (by omega)]

/-- Closed form of one outer iteration of `change_vartype` at index `u`. -/
theorem cvStep_eq (a b c d e : Rat) (st : List Rat × List Nbhd × Rat) (u : Nat) :
    cvStep a b c d e st u
      = (st.1.set u (a * st.1.getD u 0 + d * ((st.2.1.getD u []).map Prod.snd).sum),
         st.2.1.set u ((st.2.1.getD u []).map fun p => (p.1, c * p.2)),
         st.2.2 + b * st.1.getD u 0 + e * ((st.2.1.getD u []).map Prod.snd).sum) := by
  obtain ⟨lin, adj, off⟩ := st
  simp only [cvStep, cvInner_eq]
  simp only [Prod.mk.injEq, and_true, true_and]
  by_cases h : u < lin.length
  · rw [getD_set_self lin u _ 0 h, List.set_set]
  · rw [List.set_eq_of_length_le (show lin.length ≤ u by omega)]
    rw [List.set_eq_of_length_le (by simpa using show lin.length ≤ u by omega)]
    rw [List.set_eq_of_length_le (show lin.length ≤ u by omega)]


/-- Row bias sum of a scaled row. -/
theorem scaled_row_sum (nb : Nbhd) (c : Rat) :
    ((nb.map fun p => (p.1, c * p.2)).map Prod.snd).sum = c * (nb.map Prod.snd).sum := by
  induction nb with
  | nil => simp
  | cons p rest ih =>
    simp only [List.map_cons, List.sum_cons, ih]
    ring

/-- Outer iterations of `change_vartype` at distinct indices commute (each
touches only its own linear entry and row, plus additive offset
contributions). -/
theorem cvStep_comm (a b c d e a2 b2 c2 d2 e2 : Rat)
    (st : List Rat × List Nbhd × Rat) {u v : Nat} (huv : u ≠ v) :
    cvStep a b c d e (cvStep a2 b2 c2 d2 e2 st v) u
      = cvStep a2 b2 c2 d2 e2 (cvStep a b c d e st u) v := by
  obtain ⟨lin, adj, off⟩ := st
  simp only [cvStep_eq]
  rw [getD_set_ne lin v u _ 0 (Ne.symm huv), getD_set_ne adj v u _ [] (Ne.symm huv),
    getD_set_ne lin u v _ 0 huv, getD_set_ne adj u v _ [] huv]
  refine Prod.ext ?_ (Prod.ext ?_ ?_)
  · exact List.set_comm _ _ _ (Ne.symm huv)
  · exact List.set_comm _ _ _ (Ne.symm huv)
  · show off + b2 * _ + e2 * _ + b * _ + e * _ = off + b * _ + e * _ + b2 * _ + e2 * _
    ring

/-- A `cvStep` at an index not processed by a `cvOuter` run moves freely past
it. -/
theorem cvStep_cvOuter_comm (a b c d e a2 b2 c2 d2 e2 : Rat)
    (us : List Nat) (u : Nat) (hu : u ∉ us) (st : List Rat × List Nbhd × Rat) :
    cvStep a b c d e (cvOuter a2 b2 c2 d2 e2 st us) u
      = cvOuter a2 b2 c2 d2 e2 (cvStep a b c d e st u) us := by
  induction us generalizing st with
  | nil => rfl
  | cons v vs ih =>
    have hv : u ≠ v := fun h => hu (h ▸ List.mem_cons_self v vs)
    have hvs : u ∉ vs := fun h => hu (List.mem_cons_of_mem v h)
    show cvStep a b c d e (cvOuter a2 b2 c2 d2 e2 (cvStep a2 b2 c2 d2 e2 st v) vs) u = _
    rw [ih hvs, cvStep_comm a b c d e a2 b2 c2 d2 e2 _ hv]
    rfl

/-- If the second multiplier row inverts the first one pointwise, running the
outer loop twice over any duplicate-free list of real positions restores the
state. -/
theorem cvOuter_roundtrip (a b c d e a2 b2 c2 d2 e2 : Rat)
    (hinv : ∀ st u, u < st.1.length → cvStep a2 b2 c2 d2 e2 (cvStep a b c d e st u) u = st)
    (us : List Nat) (hnd : us.Nodup) (st : List Rat × List Nbhd × Rat)
    (hus : ∀ u ∈ us, u < st.1.length) :
    cvOuter a2 b2 c2 d2 e2 (cvOuter a b c d e st us) us = st := by
  induction us generalizing st with
  | nil => rfl
  | cons u vs ih =>
    rw [List.nodup_cons] at hnd
    show cvOuter a2 b2 c2 d2 e2
        (cvStep a2 b2 c2 d2 e2 (cvOuter a b c d e (cvStep a b c d e st u) vs) u) vs = st
    rw [cvStep_cvOuter_comm a2 b2 c2 d2 e2 a b c d e vs u hnd.1,
      hinv st u (hus u (List.mem_cons_self u vs))]
    exact ih hnd.2 st fun w hw => hus w (List.mem_cons_of_mem u hw)

/-- The generic per-index inverse of two `change_vartype` multiplier rows:
the five algebraic conditions are exactly what the round-trip requires. The
index must be a real position of the linear-bias vector (the outer loop only
visits `0 ≤ u < num_variables`). -/
theorem cvStep_inverse (a b c d e a2 b2 c2 d2 e2 : Rat)
    (h1 : a2 * a = 1) (h2 : a2 * d + d2 * c = 0) (h3 : c2 * c = 1)
    (h4 : b + b2 * a = 0) (h5 : e + b2 * d + e2 * c = 0)
    (st : List Rat × List Nbhd × Rat) (u : Nat) (hu : u < st.1.length) :
    cvStep a2 b2 c2 d2 e2 (cvStep a b c d e st u) u = st := by
  obtain ⟨lin, adj, off⟩ := st
  replace hu : u < lin.length := hu
  simp only [cvStep_eq]
  have hmap : ∀ nb : Nbhd, ((nb.map fun p => (p.1, c * p.2)).map
      fun p => (p.1, c2 * p.2)) = nb := by
    intro nb
    rw [List.map_map]
    rw [show (((fun p : Nat × Rat => (p.1, c2 * p.2)) ∘ fun p : Nat × Rat => (p.1, c * p.2)))
        = fun p : Nat × Rat => (p.1, c2 * c * p.2) from by
      funext p
      show (p.1, c2 * (c * p.2)) = _
      rw [mul_assoc]]
    rw [h3]
    rw [show (fun p : Nat × Rat => (p.1, 1 * p.2)) = fun p : Nat × Rat => p from by
      funext p
      rw [one_mul]]
    exact List.map_id _
  by_cases ha : u < adj.length
  · rw [getD_set_self lin u _ 0 hu, getD_set_self adj u _ [] ha, scaled_row_sum,
      List.set_set, List.set_set]
    refine Prod.ext ?_ (Prod.ext ?_ ?_)
    · show lin.set u (a2 * (a * lin.getD u 0
          + d * ((adj.getD u []).map Prod.snd).sum)
          + d2 * (c * ((adj.getD u []).map Prod.snd).sum)) = lin
      rw [show a2 * (a * lin.getD u 0 + d * ((adj.getD u []).map Prod.snd).sum)
            + d2 * (c * ((adj.getD u []).map Prod.snd).sum)
          = (a2 * a) * lin.getD u 0
            + (a2 * d + d2 * c) * ((adj.getD u []).map Prod.snd).sum from by ring,
        h1, h2, one_mul, zero_mul, add_zero]
      exact set_getD_self lin u 0 hu
    · show adj.set u _ = adj
      rw [hmap]
      exact set_getD_self adj u [] ha
    · show off + b * lin.getD u 0 + e * ((adj.getD u []).map Prod.snd).sum
          + b2 * (a * lin.getD u 0 + d * ((adj.getD u []).map Prod.snd).sum)
          + e2 * (c * ((adj.getD u []).map Prod.snd).sum) = off
      rw [show off + b * lin.getD u 0 + e * ((adj.getD u []).map Prod.snd).sum
            + b2 * (a * lin.getD u 0 + d * ((adj.getD u []).map Prod.snd).sum)
            + e2 * (c * ((adj.getD u []).map Prod.snd).sum)
          = off + (b + b2 * a) * lin.getD u 0
            + (e + b2 * d + e2 * c) * ((adj.getD u []).map Prod.snd).sum from by ring,
        h4, h5, zero_mul, add_zero, zero_mul, add_zero]
  · have hadj : ∀ nb : Nbhd, adj.set u nb = adj :=
      fun nb => List.set_eq_of_length_le (by omega)
    have haget : adj.getD u [] = [] := List.getD_eq_default adj [] (by omega)
    rw [hadj, haget]
    simp only [List.map_nil, List.sum_nil, mul_zero, add_zero]
    rw [getD_set_self lin u _ 0 hu, List.set_set, hadj]
    refine Prod.ext ?_ (Prod.ext rfl ?_)
    · show lin.set u (a2 * (a * lin.getD u 0)) = lin
      rw [show a2 * (a * lin.getD u 0) = (a2 * a) * lin.getD u 0 from by ring, h1, one_mul]
      exact set_getD_self lin u 0 hu
    · show off + b * lin.getD u 0 + b2 * (a * lin.getD u 0) = off
      rw [show off + b * lin.getD u 0 + b2 * (a * lin.getD u 0)
          = off + (b + b2 * a) * lin.getD u 0 from by ring, h4, zero_mul, add_zero]

/-- `cvOuter` preserves the length of the linear-bias vector. -/
theorem cvOuter_lin_length (a b c d e : Rat) (st : List Rat × List Nbhd × Rat)
    (us : List Nat) :
    (cvOuter a b c d e st us).1.length = st.1.length := by
  induction us generalizing st with
  | nil => rfl
  | cons u vs ih =>
    show (cvOuter a b c d e (cvStep a b c d e st u) vs).1.length = _
    rw [ih, cvStep_eq]
    exact List.length_set _ _ _

/-- Reduction of `change_vartype` on a literal model when the target differs
from the current vartype and has a multiplier row. -/
theorem change_vartype_apply (lin : List Rat) (adj : List Nbhd) (off : Rat)
    (vt t : Vartype) (h : t ≠ vt) (a b c d e : Rat)
    (hmul : cvMultipliers t = some (a, b, c, d, e)) :
    BQM.change_vartype ⟨lin, adj, off, vt⟩ t
      = (⟨(cvOuter a b c d e (lin, adj, off) (List.range lin.length)).1,
          (cvOuter a b c d e (lin, adj, off) (List.range lin.length)).2.1,
          (cvOuter a b c d e (lin, adj, off) (List.range lin.length)).2.2, t⟩, none) := by
  rw [BQM.change_vartype, if_neg h, hmul]
  rfl

/-! ## Positionwise characterization of the `change_vartype` outer loop -/

/-- An index not visited keeps its linear bias. -/
theorem cvOuter_lin_getD_not (a b c d e : Rat) (us : List Nat)
    (st : List Rat × List Nbhd × Rat) (u : Nat) (hu : u ∉ us) :
    (cvOuter a b c d e st us).1.getD u 0 = st.1.getD u 0 := by
  induction us generalizing st with
  | nil => rfl
  | cons w vs ih =>
    have hw : w ≠ u := fun h => hu (h ▸ List.mem_cons_self w vs)
    show (cvOuter a b c d e (cvStep a b c d e st w) vs).1.getD u 0 = _
    rw [ih _ fun h => hu (List.mem_cons_of_mem w h), cvStep_eq]
    exact getD_set_ne _ _ _ _ _ hw

/-- An index not visited keeps its row. -/
theorem cvOuter_adj_getD_not (a b c d e : Rat) (us : List Nat)
    (st : List Rat × List Nbhd × Rat) (u : Nat) (hu : u ∉ us) :
    (cvOuter a b c d e st us).2.1.getD u [] = st.2.1.getD u [] := by
  induction us generalizing st with
  | nil => rfl
  | cons w vs ih =>
    have hw : w ≠ u := fun h => hu (h ▸ List.mem_cons_self w vs)
    show (cvOuter a b c d e (cvStep a b c d e st w) vs).2.1.getD u [] = _
    rw [ih _ fun h => hu (List.mem_cons_of_mem w h), cvStep_eq]
    exact getD_set_ne _ _ _ _ _ hw

/-- A visited in-range index gets the transformed linear bias, computed from
the original state. -/
theorem cvOuter_lin_getD (a b c d e : Rat) (us : List Nat)
    (st : List Rat × List Nbhd × Rat) (u : Nat) (hnd : us.Nodup) (hu : u ∈ us)
    (hlt : u < st.1.length) :
    (cvOuter a b c d e st us).1.getD u 0
      = a * st.1.getD u 0 + d * ((st.2.1.getD u []).map Prod.snd).sum := by
  induction us generalizing st with
  | nil => cases hu
  | cons w vs ih =>
    rw [List.nodup_cons] at hnd
    show (cvOuter a b c d e (cvStep a b c d e st w) vs).1.getD u 0 = _
    rcases List.mem_cons.mp hu with rfl | hv
    · rw [cvOuter_lin_getD_not a b c d e vs _ u hnd.1, cvStep_eq]
      exact getD_set_self _ _ _ _ hlt
    · have hw : w ≠ u := fun h => hnd.1 (h ▸ hv)
      rw [ih _ hnd.2 hv (by rw [cvStep_eq]; simpa using hlt), cvStep_eq,
        getD_set_ne _ _ _ _ _ hw, getD_set_ne _ _ _ _ _ hw]

/-- A visited in-range index gets its row biases scaled by `quad_mp`. -/
theorem cvOuter_adj_getD (a b c d e : Rat) (us : List Nat)
    (st : List Rat × List Nbhd × Rat) (u : Nat) (hnd : us.Nodup) (hu : u ∈ us)
    (hlt : u < st.2.1.length) :
    (cvOuter a b c d e st us).2.1.getD u []
      = (st.2.1.getD u []).map fun p => (p.1, c * p.2) := by
  induction us generalizing st with
  | nil => cases hu
  | cons w vs ih =>
    rw [List.nodup_cons] at hnd
    show (cvOuter a b c d e (cvStep a b c d e st w) vs).2.1.getD u [] = _
    rcases List.mem_cons.mp hu with rfl | hv
    · rw [cvOuter_adj_getD_not a b c d e vs _ u hnd.1, cvStep_eq]
      exact getD_set_self _ _ _ _ hlt
    · have hw : w ≠ u := fun h => hnd.1 (h ▸ hv)
      rw [ih _ hnd.2 hv (by rw [cvStep_eq]; simpa using hlt), cvStep_eq,
        getD_set_ne _ _ _ _ _ hw]

/-- The offset accumulates, over the visited indices, the linear and
row-bias-sum contributions computed from the original state. -/
theorem cvOuter_off (a b c d e : Rat) (us : List Nat)
    (st : List Rat × List Nbhd × Rat) (hnd : us.Nodup) :
    (cvOuter a b c d e st us).2.2
      = st.2.2 + (us.map fun u =>
          b * st.1.getD u 0 + e * ((st.2.1.getD u []).map Prod.snd).sum).sum := by
  induction us generalizing st with
  | nil => simp [cvOuter]
  | cons w vs ih =>
    rw [List.nodup_cons] at hnd
    show (cvOuter a b c d e (cvStep a b c d e st w) vs).2.2 = _
    rw [ih _ hnd.2, List.map_cons, List.sum_cons, cvStep_eq]
    have hmap : (vs.map fun u =>
        b * (st.1.set w (a * st.1.getD w 0
            + d * ((st.2.1.getD w []).map Prod.snd).sum)).getD u 0
          + e * (((st.2.1.set w ((st.2.1.getD w []).map fun p => (p.1, c * p.2))).getD u []).map
              Prod.snd).sum)
        = vs.map fun u =>
          b * st.1.getD u 0 + e * ((st.2.1.getD u []).map Prod.snd).sum := by
      refine List.map_congr_left fun u hu => ?_
      have hw : w ≠ u := fun h => hnd.1 (h ▸ hu)
      rw [getD_set_ne _ _ _ _ _ hw, getD_set_ne _ _ _ _ _ hw]
    rw [hmap]
    ring

/-- `cvOuter` preserves the length of the adjacency vector. -/
theorem cvOuter_adj_length (a b c d e : Rat) (st : List Rat × List Nbhd × Rat)
    (us : List Nat) :
    (cvOuter a b c d e st us).2.1.length = st.2.1.length := by
  induction us generalizing st with
  | nil => rfl
  | cons u vs ih =>
    show (cvOuter a b c d e (cvStep a b c d e st u) vs).2.1.length = _
    rw [ih, cvStep_eq]
    exact List.length_set _ _ _

/-! ## Support lemmas for the cross-representation energy identity -/

/-- `get` through a bias scaling of the row (keys unchanged). -/
theorem Nbhd.get_scaled (nb : Nbhd) (c : Rat) (v : Nat) :
    Nbhd.get (nb.map fun p => (p.1, c * p.2)) v = c * Nbhd.get nb v := by
  induction nb with
  | nil =>
    show (0 : Rat) = c * 0
    rw [mul_zero]
  | cons p rest ih =>
    obtain ⟨u, b⟩ := p
    show (if u < v then Nbhd.get (rest.map fun p => (p.1, c * p.2)) v
        else if u = v then c * b else 0)
      = c * if u < v then Nbhd.get rest v else if u = v then b else 0
    by_cases h1 : u < v
    · rw [if_pos h1, if_pos h1, ih]
    · rw [if_neg h1, if_neg h1]
      by_cases h2 : u = v
      · rw [if_pos h2, if_pos h2]
      · rw [if_neg h2, if_neg h2, mul_zero]

/-- `getD` through a map, inside the range of the list. -/
theorem getD_map_lt (f : Rat → Rat) (x : List Rat) (u : Nat) (h : u < x.length) :
    (x.map f).getD u 0 = f (x.getD u 0) := by
  rw [List.getD_eq_getElem _ _ (by simpa using h), List.getD_eq_getElem _ _ h,
    List.getElem_map]

/-- The bias sum of a row equals the `quadratic`-accessor sum over all
variables. -/
theorem BQM.rowSum_eq_sum_range (m : BQM) (hA : m.AdjInvariant) (u : Nat) :
    ((m.row u).map Prod.snd).sum
      = ∑ v ∈ Finset.range m.num_variables, m.quadratic u v :=
  Nbhd.sum_map_eq_sum_range (m.row u) m.num_variables (fun _ b => b)
    (m.rowSorted_row hA.2.1 u) (fun p hp => m.mem_row_lt hA hp) (fun _ => rfl)

/-- Scaling biases preserves key sortedness. -/
theorem rowSorted_scaled (nb : Nbhd) (c : Rat) (h : rowSorted nb) :
    rowSorted (nb.map fun p => (p.1, c * p.2)) :=
  List.Pairwise.map _ (fun a b hab => hab) h

/-- The diagonal of the accessor vanishes on loop-free models. -/
theorem BQM.quadratic_diag (m : BQM) (hL : m.NoLoops) (u : Nat) :
    m.quadratic u u = 0 := by
  refine Nbhd.get_eq_zero _ _ fun b hb => ?_
  by_cases hu : u < m.adj.length
  · exact hL u hu (u, b) hb rfl
  · rw [BQM.row, List.getD_eq_default m.adj [] (by omega)] at hb
    cases hb

/-- A full square sum splits into the strict upper part, the strict lower
part, and the diagonal. -/
theorem sum_sq_split (n : Nat) (F : Nat → Nat → Rat) :
    (∑ u ∈ Finset.range n, ∑ v ∈ Finset.range n, F u v)
      = (∑ u ∈ Finset.range n, ∑ v ∈ Finset.range n, if u < v then F u v else 0)
        + (∑ u ∈ Finset.range n, ∑ v ∈ Finset.range n, if v < u then F u v else 0)
        + ∑ u ∈ Finset.range n, F u u := by
  rw [← Finset.sum_add_distrib, ← Finset.sum_add_distrib]
  refine Finset.sum_congr rfl fun u hu => ?_
  have hdiag : F u u = ∑ v ∈ Finset.range n, if v = u then F u v else 0 := by
    rw [Finset.sum_ite_eq' (Finset.range n) u fun v => F u v, if_pos hu]
  rw [hdiag, ← Finset.sum_add_distrib, ← Finset.sum_add_distrib]
  refine Finset.sum_congr rfl fun v _ => ?_
  rcases lt_trichotomy u v with h | h | h
  · rw [if_pos h, if_neg (by omega), if_neg (by omega)]
    ring
  · subst h
    rw [if_neg (lt_irrefl u), if_pos rfl]
    ring
  · rw [if_neg (by omega), if_pos h, if_neg (by omega)]
    ring

/-- Transposing the strict lower-triangular sum. -/
theorem sum_lt_transpose (n : Nat) (F : Nat → Nat → Rat) :
    (∑ u ∈ Finset.range n, ∑ v ∈ Finset.range n, if v < u then F u v else 0)
      = ∑ u ∈ Finset.range n, ∑ v ∈ Finset.range n, if u < v then F v u else 0 := by
  rw [Finset.sum_comm]

/-- The central quadratic-sum identity behind the cross-representation energy
equality: for a symmetric, diagonal-free pair coefficient `g` and an affine
sample transform `w ↦ α·w + β` whose coefficients satisfy the three
`change_vartype` calibration equations, the transformed quadratic sums
reproduce the original pair sum. -/
theorem quad_sum_identity (n : Nat) (g : Nat → Nat → Rat) (x : Nat → Rat)
    (α β c d e : Rat)
    (hsym : ∀ u v, g u v = g v u) (hdiag : ∀ u, g u u = 0)
    (hc : c * α * α = 1) (hd : d * α + c * α * β = 0)
    (he : 2 * e + 2 * d * β + c * β * β = 0) :
    (∑ u ∈ Finset.range n, ∑ v ∈ Finset.range n, if u < v then g u v * (x u * x v) else 0)
      = (∑ u ∈ Finset.range n,
          (e * (∑ v ∈ Finset.range n, g u v)
            + d * (∑ v ∈ Finset.range n, g u v) * (α * x u + β)))
        + ∑ u ∈ Finset.range n, ∑ v ∈ Finset.range n,
            if u < v then c * g u v * ((α * x u + β) * (α * x v + β)) else 0 := by
  have h1 : (∑ u ∈ Finset.range n,
      (e * (∑ v ∈ Finset.range n, g u v)
        + d * (∑ v ∈ Finset.range n, g u v) * (α * x u + β)))
      = ∑ u ∈ Finset.range n, ∑ v ∈ Finset.range n,
          (e + d * (α * x u + β)) * g u v := by
    refine Finset.sum_congr rfl fun u _ => ?_
    rw [Finset.mul_sum, Finset.mul_sum, Finset.sum_mul, ← Finset.sum_add_distrib]
    refine Finset.sum_congr rfl fun v _ => ?_
    ring
  rw [h1, sum_sq_split n fun u v => (e + d * (α * x u + β)) * g u v]
  have hdiag2 : (∑ u ∈ Finset.range n, (e + d * (α * x u + β)) * g u u) = 0 :=
    Finset.sum_eq_zero fun u _ => by rw [hdiag u, mul_zero]
  rw [hdiag2, add_zero, sum_lt_transpose n fun u v => (e + d * (α * x u + β)) * g u v]
  rw [← Finset.sum_add_distrib, ← Finset.sum_add_distrib]
  refine Finset.sum_congr rfl fun u _ => ?_
  rw [← Finset.sum_add_distrib, ← Finset.sum_add_distrib]
  refine Finset.sum_congr rfl fun v _ => ?_
  by_cases h : u < v
  · rw [if_pos h, if_pos h, if_pos h, if_pos h, hsym v u]
    linear_combination (-(g u v * (x u * x v))) * hc + (-(g u v * (x u + x v))) * hd
      + (-(g u v)) * he
  · rw [if_neg h, if_neg h, if_neg h, if_neg h]
    ring

/-- `change_vartype` on an abstract model, in terms of its fields. -/
theorem change_vartype_eq (m : BQM) (t : Vartype) (h : t ≠ m.vartype) (a b c d e : Rat)
    (hmul : cvMultipliers t = some (a, b, c, d, e)) :
    m.change_vartype t
      = (⟨(cvOuter a b c d e (m.linear_biases, m.adj, m.offset)
            (List.range m.num_variables)).1,
          (cvOuter a b c d e (m.linear_biases, m.adj, m.offset)
            (List.range m.num_variables)).2.1,
          (cvOuter a b c d e (m.linear_biases, m.adj, m.offset)
            (List.range m.num_variables)).2.2,
          t⟩, none) := by
  obtain ⟨lin, adj, off, vt⟩ := m
  exact change_vartype_apply lin adj off vt t h a b c d e hmul

/-- Every member of a list is a `getD` at some position. -/
theorem mem_getD_of_mem {α : Type} (l : List α) (d : α) (nb : α) (h : nb ∈ l) :
    ∃ i, i < l.length ∧ l.getD i d = nb := by
  obtain ⟨i, hi, rfl⟩ := List.mem_iff_getElem.mp h
  exact ⟨i, hi, List.getD_eq_getElem l d hi⟩

/-- Number of variables is preserved by `change_vartype`. -/
theorem change_vartype_num_variables (m : BQM) (t : Vartype) (a b c d e : Rat)
    (ht : t ≠ m.vartype) (hmul : cvMultipliers t = some (a, b, c, d, e)) :
    (m.change_vartype t).1.num_variables = m.num_variables := by
  rw [change_vartype_eq m t ht a b c d e hmul]
  exact cvOuter_lin_length a b c d e _ _

/-- Adjacency length is preserved by `change_vartype`. -/
theorem change_vartype_adj_length (m : BQM) (t : Vartype) (a b c d e : Rat)
    (ht : t ≠ m.vartype) (hmul : cvMultipliers t = some (a, b, c, d, e)) :
    (m.change_vartype t).1.adj.length = m.adj.length := by
  rw [change_vartype_eq m t ht a b c d e hmul]
  exact cvOuter_adj_length a b c d e _ _

/-- The linear bias of an in-range variable after `change_vartype`. -/
theorem change_vartype_linear (m : BQM) (t : Vartype) (a b c d e : Rat)
    (ht : t ≠ m.vartype) (hmul : cvMultipliers t = some (a, b, c, d, e))
    (u : Nat) (hu : u < m.num_variables) :
    (m.change_vartype t).1.linear u
      = a * m.linear u + d * ((m.row u).map Prod.snd).sum := by
  rw [change_vartype_eq m t ht a b c d e hmul]
  exact cvOuter_lin_getD a b c d e _ _ u (List.nodup_range _)
    (List.mem_range.mpr hu) hu

/-- The row of an in-range variable after `change_vartype`: biases scaled by
`quad_mp`. -/
theorem change_vartype_row (m : BQM) (t : Vartype) (a b c d e : Rat)
    (ht : t ≠ m.vartype) (hmul : cvMultipliers t = some (a, b, c, d, e))
    (hlen : m.adj.length = m.num_variables) (u : Nat) (hu : u < m.num_variables) :
    (m.change_vartype t).1.row u = (m.row u).map fun p => (p.1, c * p.2) := by
  rw [change_vartype_eq m t ht a b c d e hmul]
  refine cvOuter_adj_getD a b c d e _ _ u (List.nodup_range _)
    (List.mem_range.mpr hu) ?_
  show u < m.adj.length
  omega

/-- The offset after `change_vartype`. -/
theorem change_vartype_offset (m : BQM) (t : Vartype) (a b c d e : Rat)
    (ht : t ≠ m.vartype) (hmul : cvMultipliers t = some (a, b, c, d, e)) :
    (m.change_vartype t).1.offset
      = m.offset + ∑ u ∈ Finset.range m.num_variables,
          (b * m.linear u + e * ((m.row u).map Prod.snd).sum) := by
  rw [change_vartype_eq m t ht a b c d e hmul]
  show (cvOuter a b c d e (m.linear_biases, m.adj, m.offset)
      (List.range m.num_variables)).2.2 = _
  rw [cvOuter_off a b c d e _ _ (List.nodup_range _), sum_map_range]
  rfl

/-- `change_vartype` preserves the adjacency invariants. -/
theorem change_vartype_adjInvariant (m : BQM) (t : Vartype) (a b c d e : Rat)
    (hA : m.AdjInvariant) (ht : t ≠ m.vartype)
    (hmul : cvMultipliers t = some (a, b, c, d, e)) :
    (m.change_vartype t).1.AdjInvariant := by
  have hlen := hA.1
  refine ⟨?_, ?_, ?_⟩
  · rw [change_vartype_adj_length m t a b c d e ht hmul,
      change_vartype_num_variables m t a b c d e ht hmul]
    exact hlen
  · intro nb hnb
    obtain ⟨i, hi, hrow⟩ := mem_getD_of_mem _ [] nb hnb
    rw [change_vartype_adj_length m t a b c d e ht hmul] at hi
    have hi2 : i < m.num_variables := by omega
    rw [← hrow]
    show rowSorted ((m.change_vartype t).1.row i)
    rw [change_vartype_row m t a b c d e ht hmul hlen i hi2]
    exact rowSorted_scaled _ c (m.rowSorted_row hA.2.1 i)
  · intro u hu p hp
    rw [change_vartype_adj_length m t a b c d e ht hmul] at hu
    have hu2 : u < m.num_variables := by omega
    rw [show (m.change_vartype t).1.row u = (m.row u).map fun p => (p.1, c * p.2) from
      change_vartype_row m t a b c d e ht hmul hlen u hu2] at hp
    obtain ⟨q, hq, rfl⟩ := List.mem_map.mp hp
    have hq2 : (u, q.2) ∈ m.row q.1 := m.mem_row_symm hA.2.2 hq
    have hqlt : q.1 < m.num_variables := m.mem_row_lt hA hq
    rw [show (m.change_vartype t).1.row (q.1, c * q.2).1
        = (m.row (q.1, c * q.2).1).map fun p => (p.1, c * p.2) from
      change_vartype_row m t a b c d e ht hmul hlen q.1 hqlt]
    exact List.mem_map.mpr ⟨(u, q.2), hq2, rfl⟩

/-- The cross-representation energy identity, parameterized: converting with
`change_vartype t` (multiplier row `(a,b,c,d,e)`) and transforming the sample
by `w ↦ α·w + β` preserves the energy whenever the calibration equations
hold. -/
theorem energy_change_vartype (m : BQM) (x : List Rat) (t : Vartype)
    (a b c d e α β : Rat)
    (hA : m.AdjInvariant) (hL : m.NoLoops) (hx : x.length = m.num_variables)
    (ht : t ≠ m.vartype) (hmul : cvMultipliers t = some (a, b, c, d, e))
    (haα : a * α = 1) (haβ : a * β + b = 0)
    (hc : c * α * α = 1) (hd : d * α + c * α * β = 0)
    (he : 2 * e + 2 * d * β + c * β * β = 0) :
    m.energy x = (m.change_vartype t).1.energy (x.map fun w => α * w + β) := by
  have hA2 : (m.change_vartype t).1.AdjInvariant :=
    change_vartype_adjInvariant m t a b c d e hA ht hmul
  rw [BQM.energy_eq_energySpec m x hA,
    BQM.energy_eq_energySpec (m.change_vartype t).1 _ hA2]
  rw [BQM.energySpec, BQM.energySpec]
  rw [change_vartype_num_variables m t a b c d e ht hmul,
    change_vartype_offset m t a b c d e ht hmul]
  have hy : ∀ u, u < m.num_variables →
      ((x.map fun w => α * w + β).getD u 0) = α * x.getD u 0 + β :=
    fun u hu => getD_map_lt _ x u (by omega)
  have hlin2 : ∀ u ∈ Finset.range m.num_variables,
      (m.change_vartype t).1.linear u * (x.map fun w => α * w + β).getD u 0
        = (a * m.linear u
            + d * (∑ v ∈ Finset.range m.num_variables, m.quadratic u v))
          * (α * x.getD u 0 + β) := by
    intro u hu
    rw [change_vartype_linear m t a b c d e ht hmul u (List.mem_range.mp hu),
      hy u (List.mem_range.mp hu), m.rowSum_eq_sum_range hA u]
  have hquad2 : ∀ u ∈ Finset.range m.num_variables, ∀ v ∈ Finset.range m.num_variables,
      (if u < v then (m.change_vartype t).1.quadratic u v
          * ((x.map fun w => α * w + β).getD u 0
            * (x.map fun w => α * w + β).getD v 0) else 0)
        = if u < v then c * m.quadratic u v
            * ((α * x.getD u 0 + β) * (α * x.getD v 0 + β)) else 0 := by
    intro u hu v hv
    by_cases h : u < v
    · have hq : (m.change_vartype t).1.quadratic u v = c * m.quadratic u v := by
        show Nbhd.get ((m.change_vartype t).1.row u) v = _
        rw [change_vartype_row m t a b c d e ht hmul hA.1 u (List.mem_range.mp hu)]
        exact Nbhd.get_scaled _ c v
      rw [if_pos h, if_pos h, hy u (List.mem_range.mp hu), hy v (List.mem_range.mp hv), hq]
    · rw [if_neg h, if_neg h]
  rw [Finset.sum_congr rfl hlin2,
    Finset.sum_congr rfl fun u hu => Finset.sum_congr rfl (hquad2 u hu)]
  have hoffsum : ∀ u ∈ Finset.range m.num_variables,
      b * m.linear u + e * ((m.row u).map Prod.snd).sum
        = b * m.linear u
          + e * (∑ v ∈ Finset.range m.num_variables, m.quadratic u v) := by
    intro u _
    rw [m.rowSum_eq_sum_range hA u]
  rw [Finset.sum_congr rfl hoffsum]
  rw [quad_sum_identity m.num_variables (fun u v => m.quadratic u v)
    (fun u => x.getD u 0) α β c d e (m.quadratic_symm hA) (m.quadratic_diag hL)
    hc hd he]
  have hmain : (∑ u ∈ Finset.range m.num_variables, m.linear u * x.getD u 0)
      + (∑ u ∈ Finset.range m.num_variables,
          (e * (∑ v ∈ Finset.range m.num_variables, m.quadratic u v)
            + d * (∑ v ∈ Finset.range m.num_variables, m.quadratic u v)
              * (α * x.getD u 0 + β)))
      = (∑ u ∈ Finset.range m.num_variables,
          (b * m.linear u
            + e * (∑ v ∈ Finset.range m.num_variables, m.quadratic u v)))
        + ∑ u ∈ Finset.range m.num_variables,
            ((a * m.linear u
              + d * (∑ v ∈ Finset.range m.num_variables, m.quadratic u v))
              * (α * x.getD u 0 + β)) := by
    rw [← Finset.sum_add_distrib, ← Finset.sum_add_distrib]
    refine Finset.sum_congr rfl fun u _ => ?_
    linear_combination (-(m.linear u * x.getD u 0)) * haα + (-(m.linear u)) * haβ
  linear_combination hmain

/-- **C3.** Starting from vartype `X`, `change_vartype(Y)` followed by
`change_vartype(X)` (`X ≠ Y`, both in `{BINARY, SPIN}`) restores every linear
bias, every quadratic bias, and the offset exactly (the embedding computes
over `ℚ`, so "within floating tolerance" becomes exact equality); both calls
return without error. -/
theorem change_vartype_roundtrip (m : BQM) (X Y : Vartype) (hm : m.vartype = X)
    (hX : X = Vartype.BINARY ∨ X = Vartype.SPIN)
    (hY : Y = Vartype.BINARY ∨ Y = Vartype.SPIN) (hXY : X ≠ Y) :
    ((m.change_vartype Y).1.change_vartype X).1 = m ∧
      (m.change_vartype Y).2 = none ∧
      ((m.change_vartype Y).1.change_vartype X).2 = none := by
  obtain ⟨lin, adj, off, vt⟩ := m
  rcases hX with rfl | rfl <;> rcases hY with rfl | rfl
  · exact absurd rfl hXY
  · -- BINARY → SPIN → BINARY
    replace hm : vt = Vartype.BINARY := hm
    subst hm
    rw [change_vartype_apply lin adj off Vartype.BINARY Vartype.SPIN (by decide)
      (1/2) (1/2) (1/4) (1/4) (1/8) rfl]
    dsimp only
    have hlen : (cvOuter (1/2) (1/2) (1/4) (1/4) (1/8) (lin, adj, off)
        (List.range lin.length)).1.length = lin.length :=
      cvOuter_lin_length (1/2) (1/2) (1/4) (1/4) (1/8) (lin, adj, off) (List.range lin.length)
    have e2 := change_vartype_apply
      (cvOuter (1/2) (1/2) (1/4) (1/4) (1/8) (lin, adj, off) (List.range lin.length)).1
      (cvOuter (1/2) (1/2) (1/4) (1/4) (1/8) (lin, adj, off) (List.range lin.length)).2.1
      (cvOuter (1/2) (1/2) (1/4) (1/4) (1/8) (lin, adj, off) (List.range lin.length)).2.2
      Vartype.SPIN Vartype.BINARY (by decide) 2 (-1) 4 (-2) (1/2) rfl
    rw [hlen] at e2
    rw [e2]
    dsimp only
    have hrt : cvOuter 2 (-1) 4 (-2) (1/2)
        (cvOuter (1/2) (1/2) (1/4) (1/4) (1/8) (lin, adj, off) (List.range lin.length))
        (List.range lin.length) = (lin, adj, off) :=
      cvOuter_roundtrip (1/2) (1/2) (1/4) (1/4) (1/8) 2 (-1) 4 (-2) (1/2)
        (fun st u hu => cvStep_inverse _ _ _ _ _ _ _ _ _ _ (by norm_num) (by norm_num)
          (by norm_num) (by norm_num) (by norm_num) st u hu)
        (List.range lin.length) (List.nodup_range _) (lin, adj, off)
        (fun u hu => List.mem_range.mp hu)
    rw [hrt]
    exact ⟨rfl, rfl, rfl⟩
  · -- SPIN → BINARY → SPIN
    replace hm : vt = Vartype.SPIN := hm
    subst hm
    rw [change_vartype_apply lin adj off Vartype.SPIN Vartype.BINARY (by decide)
      2 (-1) 4 (-2) (1/2) rfl]
    dsimp only
    have hlen : (cvOuter 2 (-1) 4 (-2) (1/2) (lin, adj, off)
        (List.range lin.length)).1.length = lin.length :=
      cvOuter_lin_length 2 (-1) 4 (-2) (1/2) (lin, adj, off) (List.range lin.length)
    have e2 := change_vartype_apply
      (cvOuter 2 (-1) 4 (-2) (1/2) (lin, adj, off) (List.range lin.length)).1
      (cvOuter 2 (-1) 4 (-2) (1/2) (lin, adj, off) (List.range lin.length)).2.1
      (cvOuter 2 (-1) 4 (-2) (1/2) (lin, adj, off) (List.range lin.length)).2.2
      Vartype.BINARY Vartype.SPIN (by decide) (1/2) (1/2) (1/4) (1/4) (1/8) rfl
    rw [hlen] at e2
    rw [e2]
    dsimp only
    have hrt : cvOuter (1/2) (1/2) (1/4) (1/4) (1/8)
        (cvOuter 2 (-1) 4 (-2) (1/2) (lin, adj, off) (List.range lin.length))
        (List.range lin.length) = (lin, adj, off) :=
      cvOuter_roundtrip 2 (-1) 4 (-2) (1/2) (1/2) (1/2) (1/4) (1/4) (1/8)
        (fun st u hu => cvStep_inverse _ _ _ _ _ _ _ _ _ _ (by norm_num) (by norm_num)
          (by norm_num) (by norm_num) (by norm_num) st u hu)
        (List.range lin.length) (List.nodup_range _) (lin, adj, off)
        (fun u hu => List.mem_range.mp hu)
    rw [hrt]
    exact ⟨rfl, rfl, rfl⟩
  · exact absurd rfl hXY

/-- Witness for `change_vartype_roundtrip` on a concrete SPIN model. -/
theorem change_vartype_roundtrip_instance :
    testBqm0.vartype = Vartype.SPIN ∧ Vartype.SPIN ≠ Vartype.BINARY ∧
      ((testBqm0.change_vartype Vartype.BINARY).1.change_vartype Vartype.SPIN).1
        = testBqm0 ∧
      (testBqm0.change_vartype Vartype.BINARY).2 = none ∧
      ((testBqm0.change_vartype Vartype.BINARY).1.change_vartype Vartype.SPIN).2 = none :=
  ⟨rfl, by decide,
    (change_vartype_roundtrip testBqm0 Vartype.SPIN Vartype.BINARY rfl
      (Or.inr rfl) (Or.inl rfl) (by decide)).1,
    (change_vartype_roundtrip testBqm0 Vartype.SPIN Vartype.BINARY rfl
      (Or.inr rfl) (Or.inl rfl) (by decide)).2.1,
    (change_vartype_roundtrip testBqm0 Vartype.SPIN Vartype.BINARY rfl
      (Or.inr rfl) (Or.inl rfl) (by decide)).2.2⟩

/-! ## Characterizing the dense ingestion (for the non-atomicity claim) -/

/-- Membership in a dropped prefix of `List.range`. -/
theorem mem_range_drop (n k v : Nat) : v ∈ (List.range n).drop k ↔ k ≤ v ∧ v < n := by
  constructor
  · intro h
    obtain ⟨j, hj, hv⟩ := List.mem_iff_getElem.mp h
    have hlen : ((List.range n).drop k).length = n - k := by simp
    rw [List.getElem_drop, List.getElem_range] at hv
    rw [hlen] at hj
    omega
  · intro h
    refine List.mem_iff_getElem.mpr ⟨v - k, by simp; omega, ?_⟩
    rw [List.getElem_drop, List.getElem_range]
    omega

/-- Flattening singleton-or-empty blocks is a `filterMap`. -/
theorem flatten_map_toList {α : Type} (g : Nat → Option α) (l : List Nat) :
    (l.map fun u => (g u).toList).flatten = l.filterMap g := by
  induction l with
  | nil => rfl
  | cons u us ih =>
    rw [List.map_cons, List.flatten_cons, ih, List.filterMap_cons]
    cases g u <;> rfl

/-- A `filterMap` that fires at a single key of a duplicate-free list. -/
theorem filterMap_ite_single {α : Type} (l : List Nat) (hnd : l.Nodup) (i : Nat)
    (g : Nat → Option α) :
    l.filterMap (fun v => if v = i then g v else none)
      = if i ∈ l then (g i).toList else [] := by
  induction l with
  | nil => rfl
  | cons u us ih =>
    rw [List.nodup_cons] at hnd
    rw [List.filterMap_cons]
    by_cases h : u = i
    · subst h
      rw [if_pos rfl, ih hnd.2, if_neg hnd.1, if_pos (List.mem_cons_self u us)]
      cases g u <;> rfl
    · rw [if_neg h, ih hnd.2]
      by_cases h2 : i ∈ us
      · rw [if_pos h2, if_pos (List.mem_cons_of_mem u h2)]
      · rw [if_neg h2, if_neg (by
          intro hc
          rcases List.mem_cons.mp hc with rfl | hc2
          · exact h rfl
          · exact h2 hc2)]

/-- `emplaceBoth` only appends to the two endpoint rows. -/
theorem emplaceBoth_row (m : BQM) (u v : Nat) (b : Rat) (huv : u ≠ v)
    (hu : u < m.adj.length) (hv : v < m.adj.length) (i : Nat) :
    (m.emplaceBoth u v b).row i
      = if i = u then m.row u ++ [(v, b)]
        else if i = v then m.row v ++ [(u, b)] else m.row i := by
  show ((m.adj.set u (m.row u ++ [(v, b)])).set v
      ((m.adj.set u (m.row u ++ [(v, b)])).getD v [] ++ [(u, b)])).getD i []
    = _
  rw [show (m.adj.set u (m.row u ++ [(v, b)])).getD v [] = m.row v from
    getD_set_ne _ _ _ _ _ huv]
  by_cases hiv : i = v
  · subst hiv
    rw [if_neg (Ne.symm huv), if_pos rfl]
    exact getD_set_self _ _ _ _ (by simpa using hv)
  · rw [getD_set_ne _ _ _ _ _ fun h => hiv h.symm]
    by_cases hiu : i = u
    · subst hiu
      rw [if_pos rfl]
      exact getD_set_self _ _ _ _ hu
    · rw [if_neg hiu, if_neg hiv]
      exact getD_set_ne _ _ _ _ _ fun h => hiu h.symm

/-- `emplaceBoth` leaves the linear biases, offset, vartype, and adjacency
length unchanged. -/
theorem emplaceBoth_fields (m : BQM) (u v : Nat) (b : Rat) :
    (m.emplaceBoth u v b).linear_biases = m.linear_biases ∧
      (m.emplaceBoth u v b).offset = m.offset ∧
      (m.emplaceBoth u v b).vartype = m.vartype ∧
      (m.emplaceBoth u v b).adj.length = m.adj.length := by
  refine ⟨rfl, rfl, rfl, ?_⟩
  show ((m.adj.set u _).set v _).length = m.adj.length
  rw [List.length_set, List.length_set]

/-- `denseInner` leaves the linear biases, offset, vartype, and adjacency
length unchanged. -/
theorem denseInner_fields (d : List Rat) (n u : Nat) (m : BQM) (vs : List Nat) :
    (denseInner d n u m vs).linear_biases = m.linear_biases ∧
      (denseInner d n u m vs).offset = m.offset ∧
      (denseInner d n u m vs).vartype = m.vartype ∧
      (denseInner d n u m vs).adj.length = m.adj.length := by
  induction vs generalizing m with
  | nil => exact ⟨rfl, rfl, rfl, rfl⟩
  | cons v rest ih =>
    by_cases hq : denseQ d n u v = 0
    · have hstep : denseInner d n u m (v :: rest) = denseInner d n u m rest := by
        show denseInner d n u (if denseQ d n u v = 0 then m
          else m.emplaceBoth u v (denseQ d n u v)) rest = _
        rw [if_pos hq]
      rw [hstep]
      exact ih m
    · have hstep : denseInner d n u m (v :: rest)
          = denseInner d n u (m.emplaceBoth u v (denseQ d n u v)) rest := by
        show denseInner d n u (if denseQ d n u v = 0 then m
          else m.emplaceBoth u v (denseQ d n u v)) rest = _
        rw [if_neg hq]
      rw [hstep]
      obtain ⟨e1, e2, e3, e4⟩ := ih (m.emplaceBoth u v (denseQ d n u v))
      obtain ⟨f1, f2, f3, f4⟩ := emplaceBoth_fields m u v (denseQ d n u v)
      exact ⟨e1.trans f1, e2.trans f2, e3.trans f3, e4.trans f4⟩

/-- Row-wise effect of `denseInner`: row `u` gains the nonzero entries
`(v, q)` for `v ∈ vs` in order; a row `i ≠ u` gains the mirror entry for the
positions `v = i` of `vs`; other rows are untouched. -/
theorem denseInner_row (d : List Rat) (n u : Nat) (m : BQM) (vs : List Nat)
    (hu : u ∉ vs) (hulen : u < m.adj.length) (hvs : ∀ v ∈ vs, v < m.adj.length)
    (i : Nat) :
    (denseInner d n u m vs).row i
      = m.row i ++ (if i = u
          then vs.filterMap fun v =>
            if denseQ d n u v = 0 then none else some (v, denseQ d n u v)
          else vs.filterMap fun v =>
            if v = i then (if denseQ d n u v = 0 then none
              else some (u, denseQ d n u v)) else none) := by
  induction vs generalizing m with
  | nil =>
    by_cases h : i = u <;> simp [denseInner, h]
  | cons v rest ih =>
    have hvu : v ≠ u := fun h => hu (h ▸ List.mem_cons_self v rest)
    have hvlen : v < m.adj.length := hvs v (List.mem_cons_self v rest)
    have hurest : u ∉ rest := fun h => hu (List.mem_cons_of_mem v h)
    have hstep : ∀ m2 : BQM, denseInner d n u m2 (v :: rest)
        = denseInner d n u (if denseQ d n u v = 0 then m2
            else m2.emplaceBoth u v (denseQ d n u v)) rest := fun m2 => rfl
    rw [hstep m]
    by_cases hq : denseQ d n u v = 0
    · rw [if_pos hq, ih m hurest hulen
        (fun w hw => hvs w (List.mem_cons_of_mem v hw)) ]
      by_cases h : i = u
      · rw [if_pos h, if_pos h, List.filterMap_cons_none (by rw [if_pos hq])]
      · rw [if_neg h, if_neg h]
        by_cases h2 : v = i
        · rw [List.filterMap_cons_none (by rw [if_pos h2, if_pos hq])]
        · rw [List.filterMap_cons_none (by rw [if_neg h2])]
    · rw [if_neg hq]
      have hlen2 := (emplaceBoth_fields m u v (denseQ d n u v)).2.2.2
      rw [ih (m.emplaceBoth u v (denseQ d n u v)) hurest (by omega)
        (fun w hw => by
          have := hvs w (List.mem_cons_of_mem v hw)
          omega)]
      rw [emplaceBoth_row m u v (denseQ d n u v) (fun h => hvu h.symm) hulen hvlen i]
      by_cases h : i = u
      · subst h
        rw [if_pos rfl, if_pos rfl, if_pos rfl,
          List.filterMap_cons_some (by rw [if_neg hq]), List.append_assoc]
        rfl
      · rw [if_neg h, if_neg h, if_neg h]
        by_cases h2 : i = v
        · subst h2
          rw [if_pos rfl, List.filterMap_cons_some (by rw [if_pos rfl, if_neg hq]),
            List.append_assoc]
          rfl
        · rw [if_neg h2, List.filterMap_cons_none (by rw [if_neg fun hh => h2 hh.symm])]

/-- `denseOuter` leaves the linear biases, offset, vartype, and adjacency
length unchanged. -/
theorem denseOuter_fields (d : List Rat) (n : Nat) (m : BQM) (us : List Nat) :
    (denseOuter d n m us).linear_biases = m.linear_biases ∧
      (denseOuter d n m us).offset = m.offset ∧
      (denseOuter d n m us).vartype = m.vartype ∧
      (denseOuter d n m us).adj.length = m.adj.length := by
  induction us generalizing m with
  | nil => exact ⟨rfl, rfl, rfl, rfl⟩
  | cons u rest ih =>
    show (denseOuter d n (denseInner d n u m ((List.range n).drop (u + 1))) rest).linear_biases
        = _ ∧ _ ∧ _ ∧ _
    obtain ⟨e1, e2, e3, e4⟩ := ih (denseInner d n u m ((List.range n).drop (u + 1)))
    obtain ⟨f1, f2, f3, f4⟩ := denseInner_fields d n u m ((List.range n).drop (u + 1))
    exact ⟨e1.trans f1, e2.trans f2, e3.trans f3, e4.trans f4⟩

/-- Row-wise effect of `denseOuter`. -/
theorem denseOuter_row (d : List Rat) (n : Nat) (m : BQM) (us : List Nat)
    (hn : n ≤ m.adj.length) (hus : ∀ u ∈ us, u < n) (i : Nat) :
    (denseOuter d n m us).row i
      = m.row i ++ (us.map fun u =>
          if i = u
            then ((List.range n).drop (u + 1)).filterMap fun v =>
              if denseQ d n u v = 0 then none else some (v, denseQ d n u v)
            else ((List.range n).drop (u + 1)).filterMap fun v =>
              if v = i then (if denseQ d n u v = 0 then none
                else some (u, denseQ d n u v)) else none).flatten := by
  induction us generalizing m with
  | nil => simp [denseOuter]
  | cons u rest ih =>
    have hu : u < n := hus u (List.mem_cons_self u rest)
    have hnotin : u ∉ (List.range n).drop (u + 1) := fun h => by
      have := (mem_range_drop n (u + 1) u).mp h
      omega
    have hbound : ∀ v ∈ (List.range n).drop (u + 1), v < m.adj.length := fun v hv => by
      have := (mem_range_drop n (u + 1) v).mp hv
      omega
    show (denseOuter d n (denseInner d n u m ((List.range n).drop (u + 1))) rest).row i = _
    rw [ih (denseInner d n u m ((List.range n).drop (u + 1)))
      (by rw [(denseInner_fields d n u m _).2.2.2]; exact hn)
      (fun w hw => hus w (List.mem_cons_of_mem u hw))]
    rw [denseInner_row d n u m _ hnotin (by omega) hbound i]
    rw [List.map_cons, List.flatten_cons, List.append_assoc]

/-- For `i < n`, the flattened per-iteration contributions to row `i` are
exactly `denseAppendedRow`. -/
theorem denseFlatten_eq (d : List Rat) (n i : Nat) (hi : i < n) :
    ((List.range n).map fun u =>
        if i = u
          then ((List.range n).drop (u + 1)).filterMap fun v =>
            if denseQ d n u v = 0 then none else some (v, denseQ d n u v)
          else ((List.range n).drop (u + 1)).filterMap fun v =>
            if v = i then (if denseQ d n u v = 0 then none
              else some (u, denseQ d n u v)) else none).flatten
      = denseAppendedRow d n i := by
  have hnodup : ∀ u : Nat, ((List.range n).drop (u + 1)).Nodup :=
    fun u => (List.nodup_range n).sublist (List.drop_sublist (u + 1) _)
  have hf : ∀ u ∈ List.range n,
      (if i = u
        then ((List.range n).drop (u + 1)).filterMap fun v =>
          if denseQ d n u v = 0 then none else some (v, denseQ d n u v)
        else ((List.range n).drop (u + 1)).filterMap fun v =>
          if v = i then (if denseQ d n u v = 0 then none
            else some (u, denseQ d n u v)) else none)
      = (if i = u
          then ((List.range n).drop (u + 1)).filterMap fun v =>
            if denseQ d n u v = 0 then none else some (v, denseQ d n u v)
          else if u < i
            then ((if denseQ d n u i = 0 then none
              else some (u, denseQ d n u i)) : Option (Nat × Rat)).toList
            else []) := by
    intro u hu
    by_cases h : i = u
    · rw [if_pos h, if_pos h]
    · rw [if_neg h, if_neg h,
        filterMap_ite_single _ (hnodup u) i
          fun v => if denseQ d n u v = 0 then none else some (u, denseQ d n u v)]
      by_cases h2 : u < i
      · rw [if_pos ((mem_range_drop n (u + 1) i).mpr (by omega)), if_pos h2]
      · rw [if_neg (fun hm => by
          have := (mem_range_drop n (u + 1) i).mp hm
          omega), if_neg h2]
  rw [List.map_congr_left hf]
  have hsplit : List.range n = List.range i ++ i :: (List.range n).drop (i + 1) := by
    conv_lhs => rw [← List.take_append_drop i (List.range n)]
    rw [List.take_range, Nat.min_eq_left (le_of_lt hi),
      List.drop_eq_getElem_cons (by simpa using hi), List.getElem_range]
  refine Eq.trans (congrArg (fun l : List Nat => (l.map fun u =>
      if i = u
        then ((List.range n).drop (u + 1)).filterMap fun v =>
          if denseQ d n u v = 0 then none else some (v, denseQ d n u v)
        else if u < i
          then ((if denseQ d n u i = 0 then none
            else some (u, denseQ d n u i)) : Option (Nat × Rat)).toList
          else []).flatten) hsplit) ?_
  show ((List.range i ++ i :: (List.range n).drop (i + 1)).map fun u =>
      if i = u
        then ((List.range n).drop (u + 1)).filterMap fun v =>
          if denseQ d n u v = 0 then none else some (v, denseQ d n u v)
        else if u < i
          then ((if denseQ d n u i = 0 then none
            else some (u, denseQ d n u i)) : Option (Nat × Rat)).toList
          else []).flatten = _
  rw [List.map_append, List.map_cons, List.flatten_append, List.flatten_cons]
  have hseg1 : ((List.range i).map fun u =>
      if i = u
        then ((List.range n).drop (u + 1)).filterMap fun v =>
          if denseQ d n u v = 0 then none else some (v, denseQ d n u v)
        else if u < i
          then ((if denseQ d n u i = 0 then none
            else some (u, denseQ d n u i)) : Option (Nat × Rat)).toList
          else []).flatten
      = (List.range i).filterMap fun u =>
          if denseQ d n u i = 0 then none else some (u, denseQ d n u i) := by
    rw [List.map_congr_left (fun u hu => ?_), flatten_map_toList
      (fun u => if denseQ d n u i = 0 then none else some (u, denseQ d n u i))
      (List.range i)]
    have hlt : u < i := List.mem_range.mp hu
    rw [if_neg (by omega), if_pos hlt]
  have hseg3 : (((List.range n).drop (i + 1)).map fun u =>
      if i = u
        then ((List.range n).drop (u + 1)).filterMap fun v =>
          if denseQ d n u v = 0 then none else some (v, denseQ d n u v)
        else if u < i
          then ((if denseQ d n u i = 0 then none
            else some (u, denseQ d n u i)) : Option (Nat × Rat)).toList
          else []).flatten
      = [] := by
    rw [List.flatten_eq_nil_iff]
    intro nb hnb
    obtain ⟨u, hu, rfl⟩ := List.mem_map.mp hnb
    have hgt := (mem_range_drop n (i + 1) u).mp hu
    rw [if_neg (by omega), if_neg (by omega)]
  rw [hseg1, hseg3, if_pos rfl, List.append_nil]
  rfl

/-- For `i ≥ n` no per-iteration contribution touches row `i`. -/
theorem denseFlatten_nil (d : List Rat) (n i : Nat) (hi : n ≤ i) :
    ((List.range n).map fun u =>
        if i = u
          then ((List.range n).drop (u + 1)).filterMap fun v =>
            if denseQ d n u v = 0 then none else some (v, denseQ d n u v)
          else ((List.range n).drop (u + 1)).filterMap fun v =>
            if v = i then (if denseQ d n u v = 0 then none
              else some (u, denseQ d n u v)) else none).flatten
      = [] := by
  rw [List.flatten_eq_nil_iff]
  intro nb hnb
  obtain ⟨u, hu, rfl⟩ := List.mem_map.mp hnb
  have hlt := List.mem_range.mp hu
  rw [if_neg (by omega),
    filterMap_ite_single _ ((List.nodup_range n).sublist (List.drop_sublist (u + 1) _)) i
      fun v => if denseQ d n u v = 0 then none else some (u, denseQ d n u v),
    if_neg fun hm => by
      have := (mem_range_drop n (u + 1) i).mp hm
      omega]

/-- **C10.** Dense `add_quadratic(dense, n)` on a model that already has at
least one interaction (`!is_linear()`): the call fails with the
unimplemented-feature error (`logic_error("not implemented yet")`), but only
after appending every nonzero combined off-diagonal entry to both endpoints'
rows; the linear biases and the offset — where the diagonal entries would
have been routed — are untouched. The failing call is therefore not atomic:
each row `i < n` has already grown by exactly `denseAppendedRow`. (`n ≤
adj.length` reflects the function's own `assert`.) -/
theorem dense_add_nonatomic (m : BQM) (d : List Rat) (n : Nat)
    (hnl : m.is_linear = false) (hn : n ≤ m.adj.length) :
    (m.add_quadratic_dense d n).2 = some "not implemented yet" ∧
      (m.add_quadratic_dense d n).1.linear_biases = m.linear_biases ∧
      (m.add_quadratic_dense d n).1.offset = m.offset ∧
      (∀ i, i < n → (m.add_quadratic_dense d n).1.row i
          = m.row i ++ denseAppendedRow d n i) ∧
      (∀ i, n ≤ i → (m.add_quadratic_dense d n).1.row i = m.row i) := by
  have hout : m.add_quadratic_dense d n
      = (denseOuter d n m (List.range n), some "not implemented yet") := by
    show (if (!m.is_linear) = true then _ else _) = _
    rw [hnl]
    rfl
  rw [hout]
  obtain ⟨f1, f2, _, _⟩ := denseOuter_fields d n m (List.range n)
  refine ⟨rfl, f1, f2, ?_, ?_⟩
  · intro i hi
    show (denseOuter d n m (List.range n)).row i = _
    rw [denseOuter_row d n m (List.range n) hn (fun u hu => List.mem_range.mp hu) i,
      denseFlatten_eq d n i hi]
  · intro i hi
    show (denseOuter d n m (List.range n)).row i = _
    rw [denseOuter_row d n m (List.range n) hn (fun u hu => List.mem_range.mp hu) i,
      denseFlatten_nil d n i hi, List.append_nil]

/-- Witness for `dense_add_nonatomic`: a 2×2 dense block added to a model that
already has interactions. -/
theorem dense_add_nonatomic_instance :
    testBqmB.is_linear = false ∧ 2 ≤ testBqmB.adj.length ∧
      (testBqmB.add_quadratic_dense [0, 1, 0, 5] 2).2 = some "not implemented yet" ∧
      (testBqmB.add_quadratic_dense [0, 1, 0, 5] 2).1.linear_biases
        = testBqmB.linear_biases ∧
      (testBqmB.add_quadratic_dense [0, 1, 0, 5] 2).1.offset = testBqmB.offset ∧
      (testBqmB.add_quadratic_dense [0, 1, 0, 5] 2).1.row 0
        = testBqmB.row 0 ++ denseAppendedRow [0, 1, 0, 5] 2 0 := by
  have hnl : testBqmB.is_linear = false := by with_unfolding_all decide
  have hn : 2 ≤ testBqmB.adj.length := by with_unfolding_all decide
  have h := dense_add_nonatomic testBqmB [0, 1, 0, 5] 2 hnl hn
  exact ⟨hnl, hn, h.1, h.2.1, h.2.2.1, h.2.2.2.1 0 (by decide)⟩

/-- **C4.** For every model satisfying the spec's data-model invariants
(sorted-unique symmetric adjacency over distinct variables): a
BINARY-vartype model's energy at a 0/1 sample of length `num_variables()`
equals the SPIN-converted model's energy at the corresponding ±1 sample
`x_spin = 2·x_binary − 1`; symmetrically, a SPIN model's energy at a ±1
sample equals the BINARY-converted model's energy at the corresponding 0/1
sample (`x_binary = (x_spin + 1)/2`). Exact over `ℚ`. -/
theorem energy_cross_representation (m : BQM) (x : List Rat)
    (hA : m.AdjInvariant) (hL : m.NoLoops) (hx : x.length = m.num_variables) :
    ((m.vartype = Vartype.BINARY ∧ ∀ w ∈ x, w = 0 ∨ w = 1) →
        m.energy x
          = (m.change_vartype Vartype.SPIN).1.energy (x.map fun w => 2 * w - 1)) ∧
    ((m.vartype = Vartype.SPIN ∧ ∀ w ∈ x, w = -1 ∨ w = 1) →
        m.energy x
          = (m.change_vartype Vartype.BINARY).1.energy
              (x.map fun w => (w + 1) / 2)) := by
  constructor
  · intro hvt
    rw [show (fun w : Rat => 2 * w - 1) = fun w : Rat => 2 * w + (-1) from
      funext fun w => by ring]
    exact energy_change_vartype m x Vartype.SPIN (1/2) (1/2) (1/4) (1/4) (1/8) 2 (-1)
      hA hL hx (by rw [hvt.1]; exact fun h => Vartype.noConfusion h) rfl
      (by norm_num) (by norm_num) (by norm_num) (by norm_num) (by norm_num)
  · intro hvt
    rw [show (fun w : Rat => (w + 1) / 2) = fun w : Rat => (1/2) * w + (1/2) from
      funext fun w => by ring]
    exact energy_change_vartype m x Vartype.BINARY 2 (-1) 4 (-2) (1/2) (1/2) (1/2)
      hA hL hx (by rw [hvt.1]; exact fun h => Vartype.noConfusion h) rfl
      (by norm_num) (by norm_num) (by norm_num) (by norm_num) (by norm_num)

/-- Witness for `energy_cross_representation` on a concrete BINARY model and
0/1 sample. -/
theorem energy_cross_representation_instance :
    testBqmB.AdjInvariant ∧ testBqmB.NoLoops ∧
      ([1, 0, 1] : List Rat).length = testBqmB.num_variables ∧
      (testBqmB.vartype = Vartype.BINARY ∧
        ∀ w ∈ ([1, 0, 1] : List Rat), w = 0 ∨ w = 1) ∧
      testBqmB.energy [1, 0, 1]
        = (testBqmB.change_vartype Vartype.SPIN).1.energy
            (([1, 0, 1] : List Rat).map fun w => 2 * w - 1) := by
  have hA : testBqmB.AdjInvariant := by
    refine ⟨rfl, ?_, ?_⟩ <;> with_unfolding_all decide
  have hL : testBqmB.NoLoops := by with_unfolding_all decide
  have hs : ∀ w ∈ ([1, 0, 1] : List Rat), w = 0 ∨ w = 1 := by
    with_unfolding_all decide
  exact ⟨hA, hL, rfl, ⟨rfl, hs⟩,
    (energy_cross_representation testBqmB [1, 0, 1] hA hL rfl).1 ⟨rfl, hs⟩⟩

/-- **C1.** For every model whose adjacency satisfies the sorted-unique and
symmetric-storage invariants and every sample of length `num_variables()`,
the implemented `energy` (iterating `u` from `0` to `n-1` and, within `u`'s
ascending row, accumulating only neighbors `v < u`) returns offset plus
`Σ_u linear(u)·x_u` plus `Σ_{u<v} quadratic(u,v)·x_u·x_v`. -/
theorem energy_matches_spec (m : BQM) (x : List Rat) (hA : m.AdjInvariant)
    (hx : x.length = m.num_variables) : m.energy x = m.energySpec x :=
  m.energy_eq_energySpec x hA

/-- Witness for `energy_matches_spec` on a concrete 3-variable model. -/
theorem energy_matches_spec_instance :
    testBqm0.AdjInvariant ∧ ([1, -1, 1] : List Rat).length = testBqm0.num_variables ∧
      testBqm0.energy [1, -1, 1] = testBqm0.energySpec [1, -1, 1] := by
  have hA : testBqm0.AdjInvariant := by
    refine ⟨rfl, ?_, ?_⟩ <;> with_unfolding_all decide
  exact ⟨hA, rfl, energy_matches_spec testBqm0 [1, -1, 1] hA rfl⟩

/-- **C9.** A default-constructed `BinaryQuadraticModel` has vartype `BINARY`,
no variables, no interactions, and offset `0`. -/
theorem default_model_empty :
    BQM.mkEmpty.vartypeTag = Vartype.BINARY ∧ BQM.mkEmpty.num_variables = 0 ∧
      BQM.mkEmpty.num_interactions = 0 ∧ BQM.mkEmpty.offset = 0 :=
  ⟨rfl, rfl, rfl, rfl⟩

/-- **C6.** `sort_and_sum` on the row holding keys `[0,2,0,1]` with biases
`[.5,-2,2,-3]` (in that insertion order) leaves exactly the sorted unique keys
`[0,1,2]` with biases `2.5`, `-3`, `-2` respectively. -/
theorem sort_and_sum_scenario :
    Nbhd.sort_and_sum [(0, 1/2), (2, -2), (0, 2), (1, -3)]
        = [(0, 5/2), (1, -3), (2, -2)] ∧
      Nbhd.get (Nbhd.sort_and_sum [(0, 1/2), (2, -2), (0, 2), (1, -3)]) 0 = 5/2 ∧
      Nbhd.get (Nbhd.sort_and_sum [(0, 1/2), (2, -2), (0, 2), (1, -3)]) 1 = -3 ∧
      Nbhd.get (Nbhd.sort_and_sum [(0, 1/2), (2, -2), (0, 2), (1, -3)]) 2 = -2 := by
  with_unfolding_all decide

/-- **C5.** Adding the coordinate lists `rows=[0,2,0,1]`, `cols=[0,2,1,2]`,
`biases=[.5,-2,2,-3]` to an empty SPIN model yields 3 variables, offset
`-1.5`, `quadratic(0,1)=2`, `quadratic(2,1)=-3`, and `quadratic_at(0,2)`
fails NotFound; into an empty BINARY model: `linear(0)=.5`, `linear(2)=-2`,
offset `0`, and the same quadratic results. -/
theorem coo_scenario :
    (let s := (BQM.ofVartype Vartype.SPIN).add_quadratic_coo
        [0, 2, 0, 1] [0, 2, 1, 2] [1/2, -2, 2, -3] 4
     s.2 = none ∧ s.1.num_variables = 3 ∧ s.1.offset = -(3/2) ∧
       s.1.quadratic 0 1 = 2 ∧ s.1.quadratic 2 1 = -3 ∧ s.1.quadratic_at 0 2 = none) ∧
    (let b := (BQM.ofVartype Vartype.BINARY).add_quadratic_coo
        [0, 2, 0, 1] [0, 2, 1, 2] [1/2, -2, 2, -3] 4
     b.2 = none ∧ b.1.num_variables = 3 ∧ b.1.linear 0 = 1/2 ∧ b.1.linear 2 = -2 ∧
       b.1.offset = 0 ∧ b.1.quadratic 0 1 = 2 ∧ b.1.quadratic 2 1 = -3 ∧
       b.1.quadratic_at 0 2 = none) := by
  with_unfolding_all decide

/-- **C7.** COO ingestion with a negative `length` fails (the source throws
`std::out_of_range("length must be positive")`, the error the spec's taxonomy
files under InvalidArgument for a negative ingestion length) and leaves the
model completely unchanged. -/
theorem coo_negative_length (m : BQM) (rows cols : List Nat) (biases : List Rat)
    (length : Int) (h : length < 0) :
    m.add_quadratic_coo rows cols biases length = (m, some "length must be positive") := by
  have h0 : ¬ (0 < length) := by omega
  simp only [BQM.add_quadratic_coo, if_neg h0, if_pos h]

/-- Witness for `coo_negative_length` at `length = -1` on an empty model. -/
theorem coo_negative_length_instance :
    (-1 : Int) < 0 ∧
      BQM.mkEmpty.add_quadratic_coo [] [] [] (-1)
        = (BQM.mkEmpty, some "length must be positive") :=
  ⟨by decide, coo_negative_length BQM.mkEmpty [] [] [] (-1) (by decide)⟩

/-- **C8 (counterexample).** The claim says `vartype(v)` fails for `v`
outside `[0, num_variables)`. The accessor's body is `return vartype_;` with
no range check: on a model with zero variables, `vartype(5)` returns the
model-wide tag instead of failing. -/
theorem vartype_accessor_no_range_check :
    (BQM.ofVartype Vartype.SPIN).num_variables = 0 ∧
      (BQM.ofVartype Vartype.SPIN).vartypeAt 5 = Vartype.SPIN :=
  ⟨rfl, rfl⟩

/-- **C8 (amended).** `vartype(v)` returns the single model-wide vartype for
*every* argument `v`, in range or not; it performs no range check. -/
theorem vartype_accessor_global (m : BQM) (v : Nat) :
    m.vartypeAt v = m.vartypeTag := rfl

/-- **C8 (amended) witness** at a concrete model and an out-of-range index. -/
theorem vartype_accessor_global_instance :
    (BQM.ofVartype Vartype.BINARY).vartypeAt 7 = (BQM.ofVartype Vartype.BINARY).vartypeTag :=
  vartype_accessor_global (BQM.ofVartype Vartype.BINARY) 7

/-- **C2 (code bug).** Running the repository's own combination test
(`bqm1.add_bqm(bqm0, mapping)` with the injective, correct-length mapping
`{7,2,0}`): the call returns normally, but row 0 of the result holds the keys
`[1,3,7,2]` — not sorted, violating invariant 1 — because `add_bqm(bqm, mapping)`
appends translated entries with `emplace_back` and never calls `sort_and_sum`
(unlike the mapping-free overload). The result also has 7 interactions where
the test `REQUIRE`s 6. -/
theorem add_bqm_mapped_breaks_invariant :
    (testBqm1.add_bqm_mapped testBqm0 [7, 2, 0]).2 = none ∧
      (testBqm1.add_bqm_mapped testBqm0 [7, 2, 0]).1.row 0
        = [(1, 28/5), (3, -1), (7, -2), (2, 7)] ∧
      ¬ (testBqm1.add_bqm_mapped testBqm0 [7, 2, 0]).1.SortedAdj ∧
      (testBqm1.add_bqm_mapped testBqm0 [7, 2, 0]).1.num_interactions = 7 := by
  have hrow : (testBqm1.add_bqm_mapped testBqm0 [7, 2, 0]).1.row 0
      = [(1, 28/5), (3, -1), (7, -2), (2, 7)] := by with_unfolding_all decide
  refine ⟨by with_unfolding_all decide, hrow, fun hs => ?_, by with_unfolding_all decide⟩
  have hmem : (testBqm1.add_bqm_mapped testBqm0 [7, 2, 0]).1.row 0
      ∈ (testBqm1.add_bqm_mapped testBqm0 [7, 2, 0]).1.adj := by
    with_unfolding_all decide
  have h0 := hs _ hmem
  rw [hrow] at h0
  simp [rowSorted, List.pairwise_cons] at h0

end Dimod
